import Mathlib

/-!
# Verification of the Orion-Sentinel mealie-importer core

A shallow embedding, in Lean 4, of the parts of the mealie-importer
application (`src/stacks/apps/mealie-importer/app/`) that the verified
claims are about:

* `discovery.py`: `DiscoveryManager._normalize_url` (together with the
  behaviour of Python's `urllib.parse` functions `urlparse`, `urlunparse`,
  `parse_qs`, `urlencode`, `quote_plus`, `unquote_plus` that it calls),
  `DiscoveryManager.discover`'s sort/deduplicate/truncate pipeline,
  `DiscoveryManager._crawl_listing_page`, `DiscoveryManager._parse_sitemap`,
  and `RateLimiter`;
* `domain_filters.py`: `DomainFilterManager.is_valid_recipe_url`;
* `state_db.py`: the `urls` row type and `StateDB.record_import`,
  `StateDB.is_url_imported`, `StateDB.mark_domain_for_reimport`;
* `importer.py`: `MealieImporter._import_url`'s result cascade, the
  per-URL counter updates and caps of `MealieImporter.run`, and the
  process exit status logic of `main`.

Python strings are modelled as `List Char`.  Python `str.lower` is modelled
as ASCII lowercasing (`Char.toLower`), which agrees with CPython on every
character appearing in the development.  `datetime` values are modelled as
`Nat` with `0` playing the role of `datetime.min` (the order embedding is
all that the code uses).  Compiled regular expressions are modelled as
abstract boolean predicates on URLs, since no verified claim depends on the
semantics of a concrete pattern.  Network fetching and HTML parsing are cut
at their outputs: the lists of candidate URLs, feed entries, sitemap
documents and anchor targets that the Python code extracts are taken as
inputs of the corresponding Lean functions.
-/

namespace OrionMealie

/-! ## Basic string utilities (Python string operations on `List Char`) -/

/-- Split a list at the first occurrence of `c`:
`some (a, b)` with `l = a ++ c :: b` and `c ∉ a`, or `none` when `c ∉ l`.
Models Python `str.split(c, 1)` / `str.find(c)`. -/
def splitOnceAt (c : Char) : List Char → Option (List Char × List Char)
  | [] => none
  | x :: xs =>
    if x = c then some ([], xs)
    else match splitOnceAt c xs with
      | none => none
      | some (a, b) => some (x :: a, b)

/-- Split a list at the last occurrence of `c`:
`some (a, b)` with `l = a ++ c :: b` and `c ∉ b`. Models `str.rfind(c)`. -/
def lastSplit (c : Char) (l : List Char) : Option (List Char × List Char) :=
  match splitOnceAt c l.reverse with
  | none => none
  | some (rb, ra) => some (ra.reverse, rb.reverse)

/-- Python `str.lower()` restricted to ASCII (sufficient for this code base). -/
def pyLower (s : List Char) : List Char := s.map Char.toLower

/-- Python `str.rstrip('/')`: drop every trailing `'/'`. -/
def rstripSlash (s : List Char) : List Char :=
  (s.reverse.dropWhile (fun c => c = '/')).reverse

/-- Python `sub in s` (contiguous substring test). -/
def pyContains (s sub : List Char) : Bool := decide (sub <:+: s)

/-- Python `s.endswith(suffix)`. -/
def pyEndsWith (s suf : List Char) : Bool := decide (suf <:+ s)

/-- Python `s.startswith(p)`. -/
def pyStartsWith (s p : List Char) : Bool := decide (p <+: s)

/-- Join the pieces with separator character `c` (Python `c.join(parts)`). -/
def joinSep (c : Char) : List (List Char) → List Char
  | [] => []
  | [x] => x
  | x :: xs => x ++ c :: joinSep c xs

/-- Helper for `splitAll`: `cur` holds the current (reversed) piece. -/
def splitAllAux (c : Char) : List Char → List Char → List (List Char)
  | [], cur => [cur.reverse]
  | x :: xs, cur =>
    if x = c then cur.reverse :: splitAllAux c xs []
    else splitAllAux c xs (x :: cur)

/-- Split on every occurrence of `c` (Python `s.split(c)`); never empty. -/
def splitAll (c : Char) (l : List Char) : List (List Char) :=
  splitAllAux c l []

/-! ## `urllib.parse` percent-encoding: `quote_plus` / `unquote_plus`

`quote_plus(s)` (as called by `urlencode` with `safe=''`) maps a space to
`'+'`, keeps the characters of `_ALWAYS_SAFE` (ASCII alphanumerics and
`'_'`, `'.'`, `'-'`, `'~'`), and replaces every other character by the
percent-encoding `%XX` (uppercase hex) of each of its UTF-8 bytes.

`unquote_plus(s)` maps `'+'` to a space, then percent-decodes: each ASCII
run is turned into bytes (a literal ASCII character contributes its own
byte, `%XX` with two hex digits contributes the byte `0xXX`, a `'%'` not
followed by two hex digits stays a literal `'%'` byte) and the byte runs
are UTF-8-decoded; non-ASCII characters pass through unchanged.  For byte
sequences that are not valid UTF-8, CPython inserts one U+FFFD replacement
character per maximal subpart of an ill-formed sequence
(`errors='replace'`); the model reproduces this. -/

/-- UTF-8 bytes of one character (code points are valid Unicode scalars). -/
def utf8Bytes (c : Char) : List Nat :=
  let n := c.toNat
  if n < 0x80 then [n]
  else if n < 0x800 then [0xC0 + n / 0x40, 0x80 + n % 0x40]
  else if n < 0x10000 then
    [0xE0 + n / 0x1000, 0x80 + (n / 0x40) % 0x40, 0x80 + n % 0x40]
  else
    [0xF0 + n / 0x40000, 0x80 + (n / 0x1000) % 0x40,
     0x80 + (n / 0x40) % 0x40, 0x80 + n % 0x40]

/-- Is `b` a UTF-8 continuation byte (`10xxxxxx`)? -/
def isCont (b : Nat) : Bool := decide (0x80 ≤ b ∧ b < 0xC0)

/-- The replacement character U+FFFD. -/
def replChar : Char := Char.ofNat 0xFFFD

/-- First continuation byte bounds for a 3-byte lead (`E0` forbids
overlong forms, `ED` forbids surrogates). -/
def cont3Lo (b : Nat) : Nat := if b = 0xE0 then 0xA0 else 0x80
def cont3Hi (b : Nat) : Nat := if b = 0xED then 0x9F else 0xBF

/-- First continuation byte bounds for a 4-byte lead (`F0` forbids
overlong forms, `F4` caps at U+10FFFF). -/
def cont4Lo (b : Nat) : Nat := if b = 0xF0 then 0x90 else 0x80
def cont4Hi (b : Nat) : Nat := if b = 0xF4 then 0x8F else 0xBF

/-- UTF-8 decoding with `errors='replace'`: one U+FFFD per maximal subpart
of an ill-formed sequence (the Unicode best practice CPython implements). -/
def utf8DecodeReplace : List Nat → List Char
  | [] => []
  | b :: bs =>
    if b < 0x80 then Char.ofNat b :: utf8DecodeReplace bs
    else if b < 0xC2 then replChar :: utf8DecodeReplace bs
    else if b ≤ 0xDF then
      match bs with
      | [] => [replChar]
      | b1 :: rest =>
        if isCont b1 then
          Char.ofNat ((b - 0xC0) * 0x40 + (b1 - 0x80)) :: utf8DecodeReplace rest
        else replChar :: utf8DecodeReplace (b1 :: rest)
    else if b ≤ 0xEF then
      match bs with
      | [] => [replChar]
      | b1 :: rest =>
        if cont3Lo b ≤ b1 ∧ b1 ≤ cont3Hi b then
          match rest with
          | [] => [replChar]
          | b2 :: rest2 =>
            if isCont b2 then
              Char.ofNat ((b - 0xE0) * 0x1000 + (b1 - 0x80) * 0x40 + (b2 - 0x80)) ::
                utf8DecodeReplace rest2
            else replChar :: utf8DecodeReplace (b2 :: rest2)
        else replChar :: utf8DecodeReplace (b1 :: rest)
    else if b ≤ 0xF4 then
      match bs with
      | [] => [replChar]
      | b1 :: rest =>
        if cont4Lo b ≤ b1 ∧ b1 ≤ cont4Hi b then
          match rest with
          | [] => [replChar]
          | b2 :: rest2 =>
            if isCont b2 then
              match rest2 with
              | [] => [replChar]
              | b3 :: rest3 =>
                if isCont b3 then
                  Char.ofNat ((b - 0xF0) * 0x40000 + (b1 - 0x80) * 0x1000 +
                      (b2 - 0x80) * 0x40 + (b3 - 0x80)) :: utf8DecodeReplace rest3
                else replChar :: utf8DecodeReplace (b3 :: rest3)
            else replChar :: utf8DecodeReplace (b2 :: rest2)
        else replChar :: utf8DecodeReplace (b1 :: rest)
    else replChar :: utf8DecodeReplace bs

/-- ASCII alphanumeric test. -/
def isAsciiAlphaNum (c : Char) : Bool :=
  decide (('a' ≤ c ∧ c ≤ 'z') ∨ ('A' ≤ c ∧ c ≤ 'Z') ∨ ('0' ≤ c ∧ c ≤ '9'))

/-- Member of `urllib.parse._ALWAYS_SAFE` (the `safe=''` case). -/
def isAlwaysSafe (c : Char) : Bool :=
  isAsciiAlphaNum c || decide (c = '_' ∨ c = '.' ∨ c = '-' ∨ c = '~')

/-- Upper-case hexadecimal digit for `n < 16`. -/
def hexDigit (n : Nat) : Char :=
  if n < 10 then Char.ofNat (48 + n) else Char.ofNat (55 + n)

/-- `%XX` percent-encoding of one byte. -/
def pctByte (b : Nat) : List Char := ['%', hexDigit (b / 16), hexDigit (b % 16)]

/-- `quote_plus` on one character. -/
def quotePlusChar (c : Char) : List Char :=
  if c = ' ' then ['+']
  else if isAlwaysSafe c then [c]
  else (utf8Bytes c).flatMap pctByte

/-- Python `urllib.parse.quote_plus(s, safe='')`. -/
def quotePlus (s : List Char) : List Char := s.flatMap quotePlusChar

/-- Value of an ASCII hex digit, if any. -/
def hexVal (c : Char) : Option Nat :=
  if '0' ≤ c ∧ c ≤ '9' then some (c.toNat - 48)
  else if 'a' ≤ c ∧ c ≤ 'f' then some (c.toNat - 87)
  else if 'A' ≤ c ∧ c ≤ 'F' then some (c.toNat - 55)
  else none

/-- Tokenize for `unquote`: ASCII characters and `%XX` escapes become bytes
(`Sum.inl`), non-ASCII characters pass through (`Sum.inr`). -/
def unquoteTokens : List Char → List (Nat ⊕ Char)
  | [] => []
  | c :: rest =>
    if c = '%' then
      match rest with
      | a :: b :: rest2 =>
        match hexVal a, hexVal b with
        | some ha, some hb => Sum.inl (16 * ha + hb) :: unquoteTokens rest2
        | _, _ => Sum.inl 37 :: unquoteTokens (a :: b :: rest2)
      | r => Sum.inl 37 :: unquoteTokens r
    else (if c.toNat < 0x80 then Sum.inl c.toNat else Sum.inr c) :: unquoteTokens rest

/-- Decode the token stream: maximal byte runs are UTF-8-decoded, literal
(non-ASCII) characters are copied.  `acc` holds the current byte run in
reverse. -/
def decodeTokens : List (Nat ⊕ Char) → List Nat → List Char
  | [], acc => utf8DecodeReplace acc.reverse
  | Sum.inl b :: rest, acc => decodeTokens rest (b :: acc)
  | Sum.inr c :: rest, acc =>
    utf8DecodeReplace acc.reverse ++ c :: decodeTokens rest []

/-- Python `urllib.parse.unquote_plus`. -/
def unquotePlus (s : List Char) : List Char :=
  decodeTokens (unquoteTokens (s.map fun c => if c = '+' then ' ' else c)) []

/-- `'+' ↦ ' '`, the first step of `unquote_plus`. -/
def plusToSpace (s : List Char) : List Char :=
  s.map fun c => if c = '+' then ' ' else c

/-! ## `urllib.parse`: `urlparse` / `urlunparse` (CPython semantics)

`urlsplit` first removes `'\t'`, `'\r'`, `'\n'`, then takes a scheme when
the text before the first `':'` is nonempty, starts with an ASCII letter
and consists of scheme characters (the scheme is lowercased), then takes a
netloc after a leading `"//"` (up to `'/'`, `'?'` or `'#'`), then splits
the fragment at the first `'#'` and the query at the first `'?'`.
`urlparse` additionally splits path parameters at the first `';'` in the
last path segment, for schemes in `uses_params`.  CPython's `ValueError`
for unbalanced `'['`/`']'` in the netloc is not modelled (the functions
here are total); no claim's input reaches that branch. -/

/-- The components of a parsed URL, as in `urllib.parse.ParseResult`. -/
structure UrlParts where
  scheme : List Char
  netloc : List Char
  path : List Char
  params : List Char
  query : List Char
  fragment : List Char
deriving DecidableEq, Repr

/-- Characters allowed in a URL scheme (`urllib.parse.scheme_chars`). -/
def isSchemeChar (c : Char) : Bool :=
  isAsciiAlphaNum c || decide (c = '+' ∨ c = '-' ∨ c = '.')

/-- ASCII letter test (`c.isascii() and c.isalpha()`). -/
def isAsciiAlpha (c : Char) : Bool :=
  decide (('a' ≤ c ∧ c ≤ 'z') ∨ ('A' ≤ c ∧ c ≤ 'Z'))

/-- Remove `'\t'`, `'\r'`, `'\n'` (`_UNSAFE_URL_BYTES_TO_REMOVE`). -/
def removeUnsafe (s : List Char) : List Char :=
  s.filter fun c => ¬ (c = '\t' ∨ c = '\r' ∨ c = '\n')

/-- `url.lstrip(_WHATWG_C0_CONTROL_OR_SPACE)`: drop leading characters with
code point at most `0x20`. -/
def lstripControl (s : List Char) : List Char :=
  s.dropWhile fun c => c.toNat ≤ 0x20

/-- Extract the scheme: `some (scheme.lower(), rest)` when the text before
the first `':'` is a valid scheme, else `none`. -/
def schemeSplit (u : List Char) : Option (List Char × List Char) :=
  match splitOnceAt ':' u with
  | none => none
  | some (a, b) =>
    match a with
    | [] => none
    | c :: cs =>
      if isAsciiAlpha c ∧ (c :: cs).all isSchemeChar then some (pyLower (c :: cs), b)
      else none

/-- Is `c` one of the netloc delimiters `'/'`, `'?'`, `'#'`? -/
def isNetlocDelim (c : Char) : Bool := decide (c = '/' ∨ c = '?' ∨ c = '#')

/-- `urllib.parse.urlsplit` (params are left inside `path`; `fragment`
split before `query`, both at the first occurrence). -/
def pyUrlsplit (url0 : List Char) : UrlParts :=
  let u := removeUnsafe (lstripControl url0)
  let (scheme, r1) := (schemeSplit u).getD ([], u)
  let (netloc, r2) :=
    if r1.take 2 = ['/', '/'] then
      ((r1.drop 2).takeWhile (fun c => ¬ isNetlocDelim c),
       (r1.drop 2).dropWhile (fun c => ¬ isNetlocDelim c))
    else ([], r1)
  let (r3, fragment) := (splitOnceAt '#' r2).getD (r2, [])
  let (path, query) := (splitOnceAt '?' r3).getD (r3, [])
  ⟨scheme, netloc, path, [], query, fragment⟩

/-- `urllib.parse._splitparams`: split path parameters at the first `';'`
occurring in the last `'/'`-separated segment. -/
def splitParamsPy (p : List Char) : List Char × List Char :=
  match lastSplit '/' p with
  | some (a, b) =>
    match splitOnceAt ';' b with
    | none => (p, [])
    | some (b1, b2) => (a ++ '/' :: b1, b2)
  | none =>
    match splitOnceAt ';' p with
    | none => (p, [])
    | some (a, b) => (a, b)

/-- `urllib.parse.uses_params` (schemes for which params are split),
as in CPython 3.11. -/
def usesParams : List (List Char) :=
  [[], ("ftp".toList), ("hdl".toList), ("prospero".toList), ("http".toList),
   ("imap".toList), ("https".toList), ("shttp".toList), ("rtsp".toList),
   ("rtsps".toList), ("rtspu".toList), ("sip".toList), ("sips".toList),
   ("mms".toList), ("sftp".toList), ("tel".toList)]

/-- `urllib.parse.uses_netloc` (schemes that get `"//"` on unsplitting),
as in CPython 3.11. -/
def usesNetloc : List (List Char) :=
  [[], ("ftp".toList), ("http".toList), ("gopher".toList), ("nntp".toList),
   ("telnet".toList), ("imap".toList), ("wais".toList), ("file".toList),
   ("mms".toList), ("https".toList), ("shttp".toList), ("snews".toList),
   ("prospero".toList), ("rtsp".toList), ("rtsps".toList), ("rtspu".toList),
   ("rsync".toList), ("svn".toList), ("svn+ssh".toList), ("sftp".toList),
   ("nfs".toList), ("git".toList), ("git+ssh".toList), ("ws".toList),
   ("wss".toList)]

/-- `urllib.parse.urlparse`. -/
def pyUrlparse (url0 : List Char) : UrlParts :=
  let s := pyUrlsplit url0
  if usesParams.contains s.scheme ∧ (';' ∈ s.path) then
    let (p, par) := splitParamsPy s.path
    { s with path := p, params := par }
  else s

/-- `urllib.parse.urlunsplit` (for a `UrlParts` whose params were already
re-attached to the path). -/
def pyUrlunsplit (scheme netloc path query fragment : List Char) : List Char :=
  let u1 :=
    if netloc ≠ [] ∨ (scheme ≠ [] ∧ usesNetloc.contains scheme ∧ path.take 2 ≠ ['/', '/']) then
      let p := if path ≠ [] ∧ path.take 1 ≠ ['/'] then '/' :: path else path
      '/' :: '/' :: (netloc ++ p)
    else path
  let u2 := if scheme ≠ [] then scheme ++ ':' :: u1 else u1
  let u3 := if query ≠ [] then u2 ++ '?' :: query else u2
  if fragment ≠ [] then u3 ++ '#' :: fragment else u3

/-- `urllib.parse.urlunparse`. -/
def pyUrlunparse (p : UrlParts) : List Char :=
  let pw := if p.params ≠ [] then p.path ++ ';' :: p.params else p.path
  pyUrlunsplit p.scheme p.netloc pw p.query p.fragment

/-! ## `urllib.parse`: `parse_qs` / `urlencode` -/

/-- One `name=value` chunk of `parse_qsl`: an empty chunk, a chunk without
`'='` or a chunk with an empty value yields nothing; otherwise the name and
the value are `unquote_plus`d. -/
def parseQslPart (part : List Char) : List (List Char × List Char) :=
  if part = [] then []
  else match splitOnceAt '=' part with
    | none => []
    | some (n, v) =>
      if v = [] then [] else [(unquotePlus n, unquotePlus v)]

/-- `urllib.parse.parse_qsl(qs)` with default arguments: split on `'&'`
and process each chunk. -/
def parseQsl (qs : List Char) : List (List Char × List Char) :=
  (splitAll '&' qs).flatMap parseQslPart

/-- Insert a pair into the `parse_qs` dictionary: values of an existing key
are appended, new keys go to the end (Python dict insertion order). -/
def qsInsert (k v : List Char) :
    List (List Char × List (List Char)) → List (List Char × List (List Char))
  | [] => [(k, [v])]
  | (k', vs) :: rest =>
    if k' = k then (k', vs ++ [v]) :: rest else (k', vs) :: qsInsert k v rest

/-- `urllib.parse.parse_qs(qs)`: group `parse_qsl` by key. -/
def parseQs (qs : List Char) : List (List Char × List (List Char)) :=
  (parseQsl qs).foldl (fun d kv => qsInsert kv.1 kv.2 d) []

/-- `urllib.parse.urlencode(d, doseq=True)` on a `parse_qs`-style dict. -/
def urlencodeQs (d : List (List Char × List (List Char))) : List Char :=
  joinSep '&' (d.flatMap fun kv => kv.2.map fun v => quotePlus kv.1 ++ '=' :: quotePlus v)

/-- The characters `urlencode` output can contain: the separators `'&'` and
`'='`, the plus sign, the percent sign, the always-safe alphabet and the
upper-case hex digits. -/
def qsSafe (c : Char) : Bool :=
  c = '&' || c = '=' || c = '+' || c = '%' || isAlwaysSafe c ||
    decide ('0' ≤ c ∧ c ≤ '9') || decide ('A' ≤ c ∧ c ≤ 'F')

/-! ## `DiscoveryManager._normalize_url` (discovery.py, lines 422-448) -/

/-- The `STRIP_PARAMS` set of `_normalize_url`. -/
def STRIP_PARAMS : List (List Char) :=
  [("utm_source".toList), ("utm_medium".toList), ("utm_campaign".toList),
   ("utm_term".toList), ("utm_content".toList), ("fbclid".toList),
   ("gclid".toList), ("ref".toList), ("source".toList), ("campaign".toList),
   ("mc_cid".toList), ("mc_eid".toList)]

/-- The dict comprehension `{k: v for k, v in query_params.items() if k not
in STRIP_PARAMS}`. -/
def filterTracking (d : List (List Char × List (List Char))) :
    List (List Char × List (List Char)) :=
  d.filter fun kv => ¬ STRIP_PARAMS.contains kv.1

/-- `DiscoveryManager._normalize_url`: lowercase the netloc, strip tracking
query parameters and re-encode the rest, strip trailing slashes from the
path, drop the fragment, and reassemble. -/
def pyNormalize (url : List Char) : List Char :=
  let p := pyUrlparse url
  pyUrlunparse
    ⟨p.scheme, pyLower p.netloc, rstripSlash p.path, p.params,
     urlencodeQs (filterTracking (parseQs p.query)), []⟩

/-! ## `DomainFilterManager.is_valid_recipe_url` (domain_filters.py)

Compiled regex patterns are modelled as abstract boolean predicates on the
URL (`pattern.search(url)` is the predicate applied to the URL).  The
manager state mirrors `_common_deny`, `_common_deny_query`, `_site_rules`
and `_domain_to_site_key`; dictionaries become association lists. -/

/-- Compiled allow/deny pattern lists of one site (`_site_rules[key]`). -/
structure SiteRules where
  allow : List (List Char → Bool)
  deny : List (List Char → Bool)

/-- The state of a `DomainFilterManager`. -/
structure FilterManager where
  commonDeny : List (List Char → Bool)
  commonDenyQuery : List (List Char → Bool)
  siteRules : List (List Char × SiteRules)
  domainToSiteKey : List (List Char × List Char)

/-- Association-list lookup (Python `dict.get`). -/
def assocFind {α : Type} (l : List (List Char × α)) (k : List Char) : Option α :=
  match l with
  | [] => none
  | (k', v) :: rest => if k' = k then some v else assocFind rest k

/-- The `domain` computed by `is_valid_recipe_url`: lowercased netloc with a
leading `"www."` removed. -/
def urlDomainKey (url : List Char) : List Char :=
  let d := pyLower (pyUrlparse url).netloc
  if pyStartsWith d ("www.".toList) then d.drop 4 else d

/-- The effective site key after the `if not source_key:` fallback
(`None` and the empty string are both falsy in Python). -/
def effectiveSiteKey (m : FilterManager) (url : List Char)
    (sourceKey : Option (List Char)) : Option (List Char) :=
  match sourceKey with
  | some s => if s = [] then assocFind m.domainToSiteKey (urlDomainKey url) else some s
  | none => assocFind m.domainToSiteKey (urlDomainKey url)

/-- `DomainFilterManager.is_valid_recipe_url` (lines 132-192): common deny
patterns, then common deny-query patterns, then site deny patterns, then
site allow patterns; every fall-through path returns `False`. -/
def isValidRecipeUrl (m : FilterManager) (url : List Char)
    (sourceKey : Option (List Char)) : Bool :=
  let key := effectiveSiteKey m url sourceKey
  if m.commonDeny.any (fun p => p url) then false
  else if m.commonDenyQuery.any (fun p => p url) then false
  else
    match key with
    | some s =>
      if s ≠ [] then
        match assocFind m.siteRules s with
        | some rules =>
          if rules.deny.any (fun p => p url) then false
          else if rules.allow.isEmpty then false
          else rules.allow.any (fun p => p url)
        | none => false
      else false
    | none => false

/-! ## `StateDB` (state_db.py)

A row of the `urls` table.  The table is keyed by `url` (primary key), so a
single operation sees at most one row; the model passes that row (or
`none`) explicitly.  `TEXT` timestamps are modelled as `Nat`. -/

/-- One row of the `urls` table. -/
structure URLRecord where
  url : List Char
  domain : List Char
  sourceKey : Option (List Char)
  discoveredAt : Nat
  importedAt : Option Nat
  status : List Char
  lastError : Option (List Char)
  recipeSlugOrId : Option (List Char)
  htmlHash : Option (List Char)
  needsReimport : Bool
deriving DecidableEq, Repr

/-- `StateDB.is_url_imported` (lines 108-126): the row for the URL exists,
its status is `'imported'` or `'imported_html'`, and `needs_reimport = 0`. -/
def isUrlImportedRow (row : Option URLRecord) : Bool :=
  match row with
  | none => false
  | some r =>
    (r.status = ("imported".toList) ∨ r.status = ("imported_html".toList)) ∧
      r.needsReimport = false

/-- `StateDB.record_import` (lines 160-207): `INSERT ... ON CONFLICT(url) DO
UPDATE`.  `existing` is the row currently stored under this URL, `now` the
transaction timestamp.  On conflict, `recipe_slug_or_id` and `html_hash`
are merged with `COALESCE(excluded.x, x)` and `needs_reimport` is reset. -/
def recordImport (existing : Option URLRecord) (url sourceKey status : List Char)
    (recipeSlug htmlHash lastError : Option (List Char)) (now : Nat) : URLRecord :=
  let domain := pyLower (pyUrlparse url).netloc
  let importedAt :=
    if status = ("imported".toList) ∨ status = ("imported_html".toList)
    then some now else none
  match existing with
  | none =>
    ⟨url, domain, some sourceKey, now, importedAt, status, lastError,
     recipeSlug, htmlHash, false⟩
  | some r =>
    { r with
      importedAt := importedAt
      status := status
      recipeSlugOrId := recipeSlug.orElse (fun _ => r.recipeSlugOrId)
      htmlHash := htmlHash.orElse (fun _ => r.htmlHash)
      lastError := lastError
      needsReimport := false }

/-- `StateDB.mark_domain_for_reimport` (lines 244-261):
`UPDATE urls SET needs_reimport = 1 WHERE domain LIKE '%d%'`. -/
def markDomainForReimport (rows : List URLRecord) (domain : List Char) : List URLRecord :=
  rows.map fun r => if pyContains r.domain domain then { r with needsReimport := true } else r

/-! ## `RateLimiter` (discovery.py, lines 95-123)

`backoff_multiplier` is a `defaultdict` from domain to float with default
`1.0`; floats are modelled as rationals (the claims are order/clamp facts
which are exact in IEEE arithmetic as well). -/

/-- An event observed for a domain. -/
inductive RLEvent where
  | success
  | rateLimited
deriving DecidableEq

/-- One multiplier update: `record_success` multiplies by `0.9` with floor
`1.0`; `record_rate_limit` multiplies by `2` with cap `32.0`. -/
def rlStep (m : ℚ) : RLEvent → ℚ
  | RLEvent.success => max 1 (m * (9 / 10))
  | RLEvent.rateLimited => min 32 (m * 2)

/-- The full backoff state: domain → multiplier (default `1.0`). -/
def rlInit : List Char → ℚ := fun _ => 1

/-- Apply one (domain, event) observation to the state. -/
def rlApply (st : List Char → ℚ) (ev : List Char × RLEvent) : List Char → ℚ :=
  fun d => if d = ev.1 then rlStep (st ev.1) ev.2 else st d

/-- Run a sequence of observations from the initial state. -/
def rlRun (evs : List (List Char × RLEvent)) : List Char → ℚ :=
  evs.foldl rlApply rlInit

/-! ## `DiscoveryManager._parse_sitemap` (discovery.py, lines 307-372)

The network fetch and XML parsing are cut at their output: a fetched
document is either an error (fetch failure, rate limit, or parse failure —
all three return `[]`), a sitemap index (the list of `<sitemap><loc>`
children, each itself a document), or a regular sitemap (its
`(loc, lastmod)` entries, with an unparseable `lastmod` already mapped to
`none`). -/

/-- A sitemap document as seen by `_parse_sitemap`. -/
inductive SitemapDoc where
  | fetchError : SitemapDoc
  | index : List SitemapDoc → SitemapDoc
  | regular : List (List Char × Option Nat) → SitemapDoc

mutual

/-- `_parse_sitemap(sitemap_url, limit)`: an error yields `[]`; an index
recurses into `sitemaps[:5]`, passing `limit - len(all_urls)` to each child
and stopping once `limit` entries are gathered; a regular sitemap scans
`root.findall(...)[:limit * 2]` and returns `urls[:limit]`. -/
def parseSitemap : SitemapDoc → Nat → List (List Char × Option Nat)
  | SitemapDoc.fetchError, _ => []
  | SitemapDoc.index subs, limit => parseSitemapIndex (subs.take 5) limit []
  | SitemapDoc.regular entries, limit => ((entries.take (limit * 2)).take limit)
termination_by sm _ => sizeOf sm
decreasing_by
  have h : ∀ (n : Nat) (l : List SitemapDoc), sizeOf (List.take n l) ≤ sizeOf l := by
    intro n l
    induction l generalizing n with
    | nil => simp
    | cons a as ih =>
      cases n with
      | zero =>
        simp only [List.take_zero, List.nil.sizeOf_spec, List.cons.sizeOf_spec]
        have : 0 ≤ sizeOf a := by positivity
        omega
      | succ n =>
        simp only [List.take_succ_cons, List.cons.sizeOf_spec]
        have := ih n
        omega
  have := h 5 subs
  simp only [SitemapDoc.index.sizeOf_spec]
  omega

/-- The `for sitemap_loc in sitemaps[:5]` loop of the index branch;
`acc` is `all_urls`. -/
def parseSitemapIndex : List SitemapDoc → Nat → List (List Char × Option Nat) →
    List (List Char × Option Nat)
  | [], _, acc => acc
  | s :: rest, limit, acc =>
    let acc2 := acc ++ parseSitemap s (limit - acc.length)
    if limit ≤ acc2.length then acc2 else parseSitemapIndex rest limit acc2
termination_by l _ _ => sizeOf l
decreasing_by
  · simp only [List.cons.sizeOf_spec]; omega
  · simp only [List.cons.sizeOf_spec]
    have : 0 ≤ sizeOf s := by positivity
    omega

end

/-- The number of sub-sitemaps the index branch recurses into (the number
of `_parse_sitemap` calls made by the `sitemaps[:5]` loop); mirrors
`parseSitemapIndex` with `accLen = len(all_urls)`. -/
def sitemapIndexVisits (subs : List SitemapDoc) (limit accLen : Nat) : Nat :=
  match subs with
  | [] => 0
  | s :: rest =>
    let len2 := accLen + (parseSitemap s (limit - accLen)).length
    1 + (if limit ≤ len2 then 0 else sitemapIndexVisits rest limit len2)

/-! ## `DiscoveryManager.discover` (discovery.py, lines 145-223)

The three strategies produce `(url, date)` candidates over the network;
the model takes the concatenated `all_urls` list (in strategy order, as it
stands at line 211) as input and performs the
sort / normalize / deduplicate / truncate pipeline of lines 211-223.
`all_urls.sort(key=lambda x: x[1] or datetime.min, reverse=True)` is a
stable sort by timestamp descending where a missing timestamp counts as
`datetime.min`; it is modelled by a stable insertion sort with the same
key (stable sorts with equal keys agree). -/

/-- The sort key `x[1] or datetime.min` (with `datetime.min ↦ 0`). -/
def sortKey (p : List Char × Option Nat) : Nat := p.2.getD 0

/-- Stable descending insertion: skip over elements whose key is strictly
larger; insert before the first element whose key is `≤` the new key. -/
def insertDesc (x : List Char × Option Nat) :
    List (List Char × Option Nat) → List (List Char × Option Nat)
  | [] => [x]
  | y :: ys => if sortKey x < sortKey y then y :: insertDesc x ys else x :: y :: ys

/-- Stable sort by key descending (`reverse=True`, stability preserved). -/
def sortDesc : List (List Char × Option Nat) → List (List Char × Option Nat)
  | [] => []
  | x :: xs => insertDesc x (sortDesc xs)

/-- The deduplication loop of lines 212-220, kept with timestamps: `seen`
is the set of already emitted normalized URLs and doubles as
`unique_urls`'s length; the loop appends `normalized` and breaks as soon
as `len(unique_urls) >= limit`.  The normalizer (`self._normalize_url`) is
a parameter here; `discover` instantiates it with `pyNormalize`. -/
def dedupTake (normalize : List Char → List Char) :
    List (List Char × Option Nat) → List (List Char) → Nat →
    List (List Char × Option Nat)
  | [], _, _ => []
  | (u, t) :: rest, seen, limit =>
    let n := normalize u
    if n ∈ seen then dedupTake normalize rest seen limit
    else if limit ≤ seen.length + 1 then [(n, t)]
    else (n, t) :: dedupTake normalize rest (n :: seen) limit

/-- The discover pipeline on the aggregated candidates, with timestamps. -/
def discoverPipelineAnn (cands : List (List Char × Option Nat)) (limit : Nat) :
    List (List Char × Option Nat) :=
  dedupTake pyNormalize (sortDesc cands) [] limit

/-- `discover`'s return value: the deduplicated normalized URLs in order. -/
def discoverPipeline (cands : List (List Char × Option Nat)) (limit : Nat) :
    List (List Char) :=
  (discoverPipelineAnn cands limit).map Prod.fst

/-! ## `DiscoveryManager._crawl_listing_page` (discovery.py, lines 374-420)

The listing page fetch, HTML parsing and `urljoin` resolution are cut at
their output: the input is the list of absolute URLs
`urljoin(listing_url, anchor['href'])` in document order. -/

/-- The per-anchor loop: keep a URL when some allowed domain is a substring
of (`domain in url_domain`) or a dot-suffix of the lowercased netloc and
the URL starts with `http://` or `https://`; stop once `limit` URLs are
collected (the `break` follows the append). -/
def crawlListingPage (absUrls : List (List Char)) (allowedDomains : List (List Char))
    (limit : Nat) (count : Nat) : List (List Char × Option Nat) :=
  match absUrls with
  | [] => []
  | u :: rest =>
    let urlDomain := pyLower (pyUrlparse u).netloc
    let allowed := allowedDomains.any fun d =>
      pyContains urlDomain d || pyEndsWith urlDomain ('.' :: d)
    if ¬ allowed then crawlListingPage rest allowedDomains limit count
    else if ¬ (pyStartsWith u ("http://".toList) || pyStartsWith u ("https://".toList)) then
      crawlListingPage rest allowedDomains limit count
    else if limit ≤ count + 1 then [(u, none)]
    else (u, none) :: crawlListingPage rest allowedDomains limit (count + 1)

/-! ## `MealieImporter` (importer.py)

`_import_url` (lines 310-403) is a result cascade over two Mealie API
calls; the API calls and the page fetch are cut at their outputs.  The
per-URL loop of `run` (lines 239-258) updates the `stats` counters and
`total_imported`; `run` returns `stats['failed'] == 0` (line 291), `False`
on a failed Mealie connection test (line 145), and the result of
`_import_single_url` under `--force-url` (line 161); `main` exits with
status `0` iff `run` returned `True` (line 508). -/

/-- The value `_import_url` returns. -/
inductive ImpResult where
  | imported
  | queued
  | failed
  | skipped
deriving DecidableEq, Repr

/-- A response of `MealieAPI.import_recipe_url` / `import_recipe_html`. -/
structure MealieResp where
  success : Bool
  statusCode : Nat
  slug : List Char
deriving Repr

/-- `MealieImporter._import_url`: `urlResp` is the result of
`import_recipe_url` (`none` = the call raised), `htmlContent` the fallback
page fetch, `htmlResp` the result of `import_recipe_html` (`none` = raised
or not attempted), `existing` the current ledger row for the URL, `errMsg`
the exception text recorded on total failure.  Returns the new ledger row
written, if any, and the result string. -/
def importUrlStep (dryRun : Bool) (urlResp : Option MealieResp)
    (htmlContent : Option (List Char)) (htmlResp : Option MealieResp)
    (hashOfHtml : List Char → List Char) (existing : Option URLRecord)
    (url sourceKey : List Char) (errMsg : List Char) (now : Nat) :
    Option URLRecord × ImpResult :=
  if dryRun then (none, ImpResult.skipped)
  else
    let fallback : Option URLRecord × ImpResult :=
      match htmlContent, htmlResp with
      | some content, some resp =>
        if resp.success then
          (some (recordImport existing url sourceKey ("imported_html".toList)
            (some resp.slug) (some (hashOfHtml content)) none now), ImpResult.imported)
        else
          (some (recordImport existing url sourceKey ("failed".toList)
            none none (some errMsg) now), ImpResult.failed)
      | _, _ =>
        (some (recordImport existing url sourceKey ("failed".toList)
          none none (some errMsg) now), ImpResult.failed)
    match urlResp with
    | some resp =>
      if resp.success then
        (some (recordImport existing url sourceKey ("imported".toList)
          (some resp.slug) none none now), ImpResult.imported)
      else if resp.statusCode = 202 then
        (some (recordImport existing url sourceKey ("queued".toList)
          none none none now), ImpResult.queued)
      else fallback
    | none => fallback

/-- The `stats` dictionary of `run`. -/
structure RunStats where
  discovered : Nat
  filtered : Nat
  skipped : Nat
  imported : Nat
  failed : Nat
  queued : Nat
deriving DecidableEq, Repr

/-- All-zero statistics (line 170). -/
def initStats : RunStats := ⟨0, 0, 0, 0, 0, 0⟩

/-- The counter update after one `_import_url` (lines 250-258). -/
def updateStats (s : RunStats) : ImpResult → RunStats
  | ImpResult.imported => { s with imported := s.imported + 1 }
  | ImpResult.queued => { s with queued := s.queued + 1 }
  | ImpResult.failed => { s with failed := s.failed + 1 }
  | ImpResult.skipped => { s with skipped := s.skipped + 1 }

/-- The `total_imported` update (line 252: only `'imported'` counts). -/
def updateTotal (t : Nat) (r : ImpResult) : Nat :=
  if r = ImpResult.imported then t + 1 else t

/-- The inner `for url in urls_to_import` loop (shutdown not requested). -/
def processUrls (results : List ImpResult) (s : RunStats) (t : Nat) : RunStats × Nat :=
  results.foldl (fun st r => (updateStats st.1 r, updateTotal st.2 r)) (s, t)

/-- The per-source loop of `run`: each source contributes the
`_import_url` results of its post-filter URL list; the loop breaks when
`total_imported >= total_cap` and truncates to the per-site limit and the
remaining run-wide cap (lines 186-236). -/
def runSources (sources : List (List ImpResult)) (perSite totalCap : Nat)
    (s : RunStats) (t : Nat) : RunStats × Nat :=
  match sources with
  | [] => (s, t)
  | urls :: rest =>
    if totalCap ≤ t then (s, t)
    else
      let toImport := (urls.take perSite).take (totalCap - t)
      let (s', t') := processUrls toImport s t
      runSources rest perSite totalCap s' t'

/-- `MealieImporter.run`'s return value.  `conn` is the result of
`mealie.test_connection()`; `forceUrl = some r` means `--force-url` was
given and the one `_import_url` call returned `r` (then `run` returns
`_import_single_url`'s `result in ('imported', 'queued')`); otherwise the
main loop runs and `run` returns `stats['failed'] == 0`. -/
def runReturns (conn : Bool) (forceUrl : Option ImpResult)
    (sources : List (List ImpResult)) (perSite totalCap : Nat) : Bool :=
  if conn = false then false
  else
    match forceUrl with
    | some r => r = ImpResult.imported ∨ r = ImpResult.queued
    | none => (runSources sources perSite totalCap initStats 0).1.failed = 0

/-- `main`'s `sys.exit(0 if success else 1)` (line 508). -/
def mainExitCode (success : Bool) : Nat := if success then 0 else 1

/-! ## Concrete fixtures used by witnesses and counterexamples -/

/-- A filter manager with no compiled rules at all. -/
def emptyFilterManager : FilterManager := ⟨[], [], [], []⟩

/-- The ledger row written by `record_import` for a queued URL. -/
def queuedRow : URLRecord :=
  recordImport none (("https://example.com/r".toList)) (("seriouseats".toList))
    (("queued".toList)) none none none 0

/-- One candidate with no timestamp (for the `limit = 0` counterexample). -/
def c3ex1 : List (List Char × Option Nat) := [((("https://a.com/x".toList)), none)]

/-- A no-timestamp candidate listed before a `datetime.min` candidate. -/
def c3ex2 : List (List Char × Option Nat) :=
  [((("https://a.com/x".toList)), none), ((("https://a.com/y".toList)), some 0)]

/-- A host that merely contains `example.com` as a substring. -/
def c5bad : List Char := ("https://badexample.com/recipe".toList)

/-- The listing-page scenario: three in-domain links, two out-of-domain. -/
def c5scenario : List (List Char) :=
  [("https://example.com/recipes/pasta".toList),
   ("https://other.org/x".toList),
   ("https://www.example.com/recipes/soup".toList),
   ("https://another.net/y".toList),
   ("https://example.com/recipes/salad".toList)]

/-- The URL on which `_normalize_url` is not idempotent. -/
def c10bad : List Char := ("https://x.com/a/;def/".toList)

/-! # Theorems -/

/-! ## Rate limiter bounds (towards C7) -/

theorem rlRun_bounds_aux (evs : List (List Char × RLEvent)) (st : List Char → ℚ)
    (h : ∀ d, 1 ≤ st d ∧ st d ≤ 32) :
    ∀ d, 1 ≤ (evs.foldl rlApply st) d ∧ (evs.foldl rlApply st) d ≤ 32 := by
  induction evs generalizing st with
  | nil => exact h
  | cons ev rest ih =>
    simp only [List.foldl_cons]
    refine ih _ ?_
    intro d
    unfold rlApply
    by_cases hd : d = ev.1
    · simp only [hd, if_pos rfl]
      rcases h ev.1 with ⟨h1, h2⟩
      cases ev.2 with
      | success =>
        unfold rlStep
        refine ⟨le_max_left 1 _, max_le (by norm_num) ?_⟩
        nlinarith
      | rateLimited =>
        unfold rlStep
        refine ⟨le_min (by norm_num) (by linarith), min_le_left 32 _⟩
    · simp only [if_neg hd]; exact h d

/-- C7: for every domain, under every sequence of `record_success` /
`record_rate_limit` events, the backoff multiplier starting from `1.0`
stays within `[1.0, 32.0]`. -/
theorem C7_backoff_bounds (evs : List (List Char × RLEvent)) (d : List Char) :
    1 ≤ rlRun evs d ∧ rlRun evs d ≤ 32 :=
  rlRun_bounds_aux evs rlInit (fun _ => by norm_num [rlInit]) d

/-! ## The state ledger upsert (C2) -/

/-- C2: `record_import` is an upsert.  A fresh row is inserted when none
exists (with the given url, source key, status, slug, hash, error and
discovery timestamp); an existing row gets its status, imported-at
timestamp and last error replaced while its discovery timestamp is kept;
`recipe_slug_or_id` and `html_hash` are only overwritten when the new
value is non-null (`COALESCE(excluded.x, x)`); and every write — insert or
update — leaves `needs_reimport = 0`.  The imported-at timestamp is set
exactly for the `imported` / `imported_html` statuses. -/
theorem C2_record_import_upsert
    (r : URLRecord) (ex : Option URLRecord) (u k st : List Char)
    (sl hh er : Option (List Char)) (x hsh : List Char) (now : Nat) :
    ((recordImport ex u k st sl hh er now).needsReimport = false)
    ∧ ((recordImport (some r) u k st sl hh er now).status = st)
    ∧ ((recordImport (some r) u k st sl hh er now).lastError = er)
    ∧ ((recordImport (some r) u k st sl hh er now).discoveredAt = r.discoveredAt)
    ∧ ((recordImport (some r) u k st none hh er now).recipeSlugOrId = r.recipeSlugOrId)
    ∧ ((recordImport (some r) u k st (some x) hh er now).recipeSlugOrId = some x)
    ∧ ((recordImport (some r) u k st sl none er now).htmlHash = r.htmlHash)
    ∧ ((recordImport (some r) u k st sl (some hsh) er now).htmlHash = some hsh)
    ∧ ((recordImport none u k st sl hh er now).url = u
        ∧ (recordImport none u k st sl hh er now).sourceKey = some k
        ∧ (recordImport none u k st sl hh er now).status = st
        ∧ (recordImport none u k st sl hh er now).recipeSlugOrId = sl
        ∧ (recordImport none u k st sl hh er now).htmlHash = hh
        ∧ (recordImport none u k st sl hh er now).lastError = er
        ∧ (recordImport none u k st sl hh er now).discoveredAt = now)
    ∧ ((recordImport ex u k (("imported".toList)) sl hh er now).importedAt = some now)
    ∧ ((recordImport ex u k (("imported_html".toList)) sl hh er now).importedAt = some now)
    ∧ ((recordImport ex u k (("failed".toList)) sl hh er now).importedAt = none)
    ∧ ((recordImport ex u k (("queued".toList)) sl hh er now).importedAt = none) := by
  cases ex <;> simp [recordImport, Option.orElse]

/-! ## Default deny (C1) -/

/-- C1: whenever the effective site key (the passed key when truthy,
otherwise the key found for the URL's domain) has no entry in the compiled
site rules — in particular when the domain is unknown and no key is passed,
so there is no key at all — `is_valid_recipe_url` returns `False`. -/
theorem C1_default_deny (m : FilterManager) (url : List Char)
    (sourceKey : Option (List Char))
    (h : ∀ s, effectiveSiteKey m url sourceKey = some s →
      assocFind m.siteRules s = none) :
    isValidRecipeUrl m url sourceKey = false := by
  unfold isValidRecipeUrl
  cases hk : effectiveSiteKey m url sourceKey with
  | none => simp [hk]
  | some s =>
    have hr := h s hk
    simp [hk, hr]

/-- Witness for C1: the empty manager, an unknown domain, no key passed. -/
theorem C1_default_deny_witness :
    (∀ s, effectiveSiteKey emptyFilterManager (("https://unknown-site.com/recipe".toList)) none = some s →
      assocFind emptyFilterManager.siteRules s = none)
    ∧ isValidRecipeUrl emptyFilterManager (("https://unknown-site.com/recipe".toList)) none = false := by
  constructor
  · intro s hs
    simp [effectiveSiteKey, emptyFilterManager, assocFind] at hs
  · exact C1_default_deny emptyFilterManager _ none
      (fun s hs => by simp [effectiveSiteKey, emptyFilterManager, assocFind] at hs)

/-! ## Queued responses (C4) -/

/-- C4 (amended): when `import_recipe_url` returns an unsuccessful response
with status code 202, `_import_url` records the URL with status `queued`
and returns `'queued'`; a queued result increments neither the `imported`
counter nor `total_imported` (so it does not consume the run-wide cap);
but the skip check `is_url_imported` does **not** treat a queued row as
done (status `queued` is not in `('imported', 'imported_html')`), so a
queued URL is re-attempted by a later run. -/
theorem C4_queued_handling (resp : MealieResp) (hs : resp.success = false)
    (hc : resp.statusCode = 202) (htmlContent : Option (List Char))
    (htmlResp : Option MealieResp) (hashOfHtml : List Char → List Char)
    (existing : Option URLRecord) (url sourceKey errMsg : List Char) (now : Nat)
    (s : RunStats) (t : Nat) :
    (importUrlStep false (some resp) htmlContent htmlResp hashOfHtml existing
        url sourceKey errMsg now).2 = ImpResult.queued
    ∧ (∃ rec, (importUrlStep false (some resp) htmlContent htmlResp hashOfHtml existing
          url sourceKey errMsg now).1 = some rec
        ∧ rec.status = ("queued".toList)
        ∧ rec.needsReimport = false
        ∧ isUrlImportedRow (some rec) = false)
    ∧ (updateStats s ImpResult.queued).imported = s.imported
    ∧ updateTotal t ImpResult.queued = t := by
  refine ⟨?_, ⟨recordImport existing url sourceKey (("queued".toList)) none none none now,
    ?_, ?_, ?_, ?_⟩, rfl, rfl⟩
  · simp [importUrlStep, hs, hc]
  · simp [importUrlStep, hs, hc]
  · cases existing <;> simp [recordImport]
  · cases existing <;> simp [recordImport]
  · cases existing <;> simp [isUrlImportedRow, recordImport]

/-- Witness for C4: a concrete 202 response against an empty ledger. -/
theorem C4_queued_handling_witness :
    ((⟨false, 202, []⟩ : MealieResp).success = false)
    ∧ ((⟨false, 202, []⟩ : MealieResp).statusCode = 202)
    ∧ (importUrlStep false (some ⟨false, 202, []⟩) none none id none
        (("https://example.com/r".toList)) (("seriouseats".toList)) [] 0).2 = ImpResult.queued := by
  refine ⟨rfl, rfl, ?_⟩
  exact (C4_queued_handling ⟨false, 202, []⟩ rfl rfl none none id none
    (("https://example.com/r".toList)) (("seriouseats".toList)) [] 0 initStats 0).1

/-- Counterexample for C4 as stated: the write path itself produces a
`queued` row, and the skip check `is_url_imported` returns `False` on it —
the row is *not* treated as done, contradicting the claim that a queued URL
is not re-attempted automatically. -/
theorem C4_claim_counterexample :
    queuedRow.status = ("queued".toList)
    ∧ queuedRow.needsReimport = false
    ∧ ¬ (isUrlImportedRow (some queuedRow) = true) := by
  decide

/-! ## Exit status (C9) -/

/-- C9: the process exit status is `0` only when zero URLs failed: a normal
run exits `0` iff the `failed` counter is zero, any nonzero `failed`
counter forces exit status `1`, a forced single-URL run whose import
attempt failed exits `1`, and a run aborted because the Mealie connection
test failed exits `1`. -/
theorem C9_exit_status (conn : Bool) (forceUrl : Option ImpResult)
    (sources : List (List ImpResult)) (perSite totalCap : Nat) :
    (mainExitCode (runReturns conn none sources perSite totalCap) = 0 →
      (runSources sources perSite totalCap initStats 0).1.failed = 0)
    ∧ ((runSources sources perSite totalCap initStats 0).1.failed ≠ 0 →
      mainExitCode (runReturns conn none sources perSite totalCap) = 1)
    ∧ mainExitCode (runReturns true (some ImpResult.failed) sources perSite totalCap) = 1
    ∧ mainExitCode (runReturns false forceUrl sources perSite totalCap) = 1 := by
  refine ⟨?_, ?_, ?_, ?_⟩
  · intro h
    cases conn with
    | false => simp [runReturns, mainExitCode] at h
    | true =>
      by_cases hf : (runSources sources perSite totalCap initStats 0).1.failed = 0
      · exact hf
      · simp [runReturns, mainExitCode, hf] at h
  · intro h
    cases conn with
    | false => simp [runReturns, mainExitCode]
    | true => simp [runReturns, mainExitCode, h]
  · simp [runReturns, mainExitCode]
  · simp [runReturns, mainExitCode]

/-- Witness for C9: one source with one failing URL exits nonzero. -/
theorem C9_exit_status_witness :
    (runSources [[ImpResult.failed]] 5 10 initStats 0).1.failed ≠ 0
    ∧ mainExitCode (runReturns true none [[ImpResult.failed]] 5 10) = 1 :=
  ⟨by decide, (C9_exit_status true none [[ImpResult.failed]] 5 10).2.1 (by decide)⟩

/-! ## Sitemap recursion bound (C8) -/

theorem sitemapIndexVisits_le_length (subs : List SitemapDoc) (limit accLen : Nat) :
    sitemapIndexVisits subs limit accLen ≤ subs.length := by
  induction subs generalizing accLen with
  | nil => simp [sitemapIndexVisits]
  | cons s rest ih =>
    simp only [sitemapIndexVisits, List.length_cons]
    split
    · omega
    · have := ih (accLen + (parseSitemap s (limit - accLen)).length)
      omega

theorem sizeOf_take_le_sitemap (k : Nat) (l : List SitemapDoc) :
    sizeOf (l.take k) ≤ sizeOf l := by
  induction l generalizing k with
  | nil => simp
  | cons a as ih =>
    cases k with
    | zero =>
      simp only [List.take_zero, List.nil.sizeOf_spec, List.cons.sizeOf_spec]
      omega
    | succ k =>
      simp only [List.take_succ_cons, List.cons.sizeOf_spec]
      have := ih k
      omega

theorem parseSitemap_len_core :
    ∀ n, (∀ sm limit, sizeOf sm ≤ n → (parseSitemap sm limit).length ≤ limit)
      ∧ (∀ l limit acc, sizeOf l ≤ n → acc.length ≤ limit →
          (parseSitemapIndex l limit acc).length ≤ limit) := by
  intro n
  induction n using Nat.strong_induction_on with
  | _ n ih =>
    constructor
    · intro sm limit hsz
      match sm with
      | SitemapDoc.fetchError => simp [parseSitemap]
      | SitemapDoc.regular entries =>
        simp only [parseSitemap]
        exact List.length_take_le _ _
      | SitemapDoc.index subs =>
        simp only [parseSitemap]
        have hsub : sizeOf (subs.take 5) ≤ sizeOf subs := sizeOf_take_le_sitemap 5 subs
        have hstep : sizeOf (subs.take 5) < n := by
          have hx : sizeOf (SitemapDoc.index subs) = 1 + sizeOf subs := by
            simp [SitemapDoc.index.sizeOf_spec]
          omega
        exact (ih _ hstep).2 (subs.take 5) limit [] (le_refl _) (by simp)
    · intro l limit acc hsz hacc
      match l with
      | [] => simpa only [parseSitemapIndex] using hacc
      | s :: rest =>
        simp only [parseSitemapIndex]
        have hs : sizeOf s < n := by
          simp only [List.cons.sizeOf_spec] at hsz
          omega
        have hrest : sizeOf rest < n := by
          simp only [List.cons.sizeOf_spec] at hsz
          omega
        have hsub := (ih _ hs).1 s (limit - acc.length) (le_refl _)
        have hlen : (acc ++ parseSitemap s (limit - acc.length)).length ≤ limit := by
          simp only [List.length_append]
          omega
        split
        · exact hlen
        · exact (ih _ hrest).2 rest limit _ (le_refl _) hlen

/-- C8: the sitemap-index branch parses at most the first 5 listed
sub-sitemaps — at most `min 5 (number listed)` recursive `_parse_sitemap`
calls, regardless of how many the index references — and the quota carried
into each sub-sitemap keeps the total result within `limit`. -/
theorem C8_sitemap_recursion_bound (subs : List SitemapDoc) (limit : Nat) :
    sitemapIndexVisits (subs.take 5) limit 0 ≤ 5
    ∧ sitemapIndexVisits (subs.take 5) limit 0 ≤ subs.length
    ∧ (∀ sm, (parseSitemap sm limit).length ≤ limit) := by
  refine ⟨?_, ?_, ?_⟩
  · refine le_trans (sitemapIndexVisits_le_length _ _ _) ?_
    rw [List.length_take]
    omega
  · refine le_trans (sitemapIndexVisits_le_length _ _ _) ?_
    rw [List.length_take]
    omega
  · intro sm
    exact (parseSitemap_len_core (sizeOf sm)).1 sm limit (le_refl _)

/-! ## The discover pipeline (C3) -/

theorem mem_insertDesc (x a : List Char × Option Nat)
    (l : List (List Char × Option Nat)) :
    a ∈ insertDesc x l ↔ a = x ∨ a ∈ l := by
  induction l with
  | nil => simp [insertDesc]
  | cons y ys ih =>
    simp only [insertDesc]
    split
    · simp only [List.mem_cons, ih]
      tauto
    · simp only [List.mem_cons]

theorem mem_sortDesc (a : List Char × Option Nat)
    (l : List (List Char × Option Nat)) (h : a ∈ sortDesc l) : a ∈ l := by
  induction l with
  | nil => simp [sortDesc] at h
  | cons x xs ih =>
    simp only [sortDesc] at h
    rcases (mem_insertDesc x a (sortDesc xs)).mp h with rfl | h
    · exact List.mem_cons_self _ _
    · exact List.mem_cons_of_mem _ (ih h)

theorem insertDesc_pairwise (x : List Char × Option Nat)
    (l : List (List Char × Option Nat))
    (h : l.Pairwise (fun a b => sortKey b ≤ sortKey a)) :
    (insertDesc x l).Pairwise (fun a b => sortKey b ≤ sortKey a) := by
  induction l with
  | nil => simp [insertDesc]
  | cons y ys ih =>
    simp only [insertDesc]
    rcases List.pairwise_cons.mp h with ⟨hy, hys⟩
    split
    · rename_i hlt
      refine List.pairwise_cons.mpr ⟨?_, ih hys⟩
      intro a ha
      rcases (mem_insertDesc x a ys).mp ha with rfl | ha2
      · omega
      · exact hy a ha2
    · rename_i hge
      refine List.pairwise_cons.mpr ⟨?_, h⟩
      intro a ha
      rcases List.mem_cons.mp ha with rfl | ha
      · omega
      · have := hy a ha
        omega

theorem sortDesc_pairwise (l : List (List Char × Option Nat)) :
    (sortDesc l).Pairwise (fun a b => sortKey b ≤ sortKey a) := by
  induction l with
  | nil => simp [sortDesc]
  | cons x xs ih => exact insertDesc_pairwise x (sortDesc xs) ih

theorem insertDesc_filter_key (x : List Char × Option Nat)
    (l : List (List Char × Option Nat)) (k : Nat) :
    (insertDesc x l).filter (fun p => sortKey p == k) =
      if sortKey x = k then x :: l.filter (fun p => sortKey p == k)
      else l.filter (fun p => sortKey p == k) := by
  induction l with
  | nil =>
    simp only [insertDesc]
    by_cases hxk : sortKey x = k
    · rw [if_pos hxk, List.filter_cons_of_pos (by simpa using hxk)]
    · rw [if_neg hxk, List.filter_cons_of_neg (by simpa using hxk)]
  | cons y ys ih =>
    simp only [insertDesc]
    split
    · rename_i hlt
      by_cases hyk : sortKey y = k
      · have hxk : ¬ sortKey x = k := by omega
        rw [List.filter_cons_of_pos (by simpa using hyk), ih, if_neg hxk, if_neg hxk,
          List.filter_cons_of_pos (by simpa using hyk)]
      · rw [List.filter_cons_of_neg (by simpa using hyk), ih,
          List.filter_cons_of_neg (by simpa using hyk)]
    · by_cases hxk : sortKey x = k
      · rw [if_pos hxk, List.filter_cons_of_pos (by simpa using hxk)]
      · rw [if_neg hxk, List.filter_cons_of_neg (by simpa using hxk)]

theorem sortDesc_stable (l : List (List Char × Option Nat)) (k : Nat) :
    (sortDesc l).filter (fun p => sortKey p == k) =
      l.filter (fun p => sortKey p == k) := by
  induction l with
  | nil => simp [sortDesc]
  | cons x xs ih =>
    simp only [sortDesc]
    rw [insertDesc_filter_key]
    by_cases hxk : sortKey x = k
    · rw [if_pos hxk, ih, List.filter_cons_of_pos (by simpa using hxk)]
    · rw [if_neg hxk, ih, List.filter_cons_of_neg (by simpa using hxk)]

theorem dedupTake_sublist (f : List Char → List Char)
    (l : List (List Char × Option Nat))
    (seen : List (List Char)) (limit : Nat) :
    (dedupTake f l seen limit).Sublist (l.map fun p => (f p.1, p.2)) := by
  induction l generalizing seen with
  | nil => simp [dedupTake]
  | cons p rest ih =>
    rcases p with ⟨u, t⟩
    simp only [dedupTake, List.map_cons]
    split
    · exact (ih seen).cons _
    · split
      · exact (List.nil_sublist _).cons₂ _
      · exact (ih _).cons₂ _

theorem dedupTake_length (f : List Char → List Char)
    (l : List (List Char × Option Nat))
    (seen : List (List Char)) (limit : Nat) :
    (dedupTake f l seen limit).length ≤ max (limit - seen.length) 1 := by
  induction l generalizing seen with
  | nil => simp [dedupTake]
  | cons p rest ih =>
    rcases p with ⟨u, t⟩
    simp only [dedupTake]
    split
    · exact ih seen
    · split
      · simp
      · rename_i hnew hlt
        have := ih (f u :: seen)
        simp only [List.length_cons] at this ⊢
        omega

theorem dedupTake_not_seen (f : List Char → List Char)
    (l : List (List Char × Option Nat))
    (seen : List (List Char)) (limit : Nat) :
    ∀ p ∈ dedupTake f l seen limit, p.1 ∉ seen := by
  induction l generalizing seen with
  | nil => simp [dedupTake]
  | cons q rest ih =>
    rcases q with ⟨u, t⟩
    simp only [dedupTake]
    split
    · exact ih seen
    · split
      · rename_i hnew _
        intro p hp
        rcases List.mem_singleton.mp hp with rfl
        exact hnew
      · rename_i hnew _
        intro p hp
        rcases List.mem_cons.mp hp with rfl | hp
        · exact hnew
        · have := ih _ p hp
          intro hmem
          exact this (List.mem_cons_of_mem _ hmem)

theorem dedupTake_nodup (f : List Char → List Char)
    (l : List (List Char × Option Nat))
    (seen : List (List Char)) (limit : Nat) :
    ((dedupTake f l seen limit).map Prod.fst).Nodup := by
  induction l generalizing seen with
  | nil => simp [dedupTake]
  | cons q rest ih =>
    rcases q with ⟨u, t⟩
    simp only [dedupTake]
    split
    · exact ih seen
    · split
      · simp
      · rename_i hnew _
        simp only [List.map_cons, List.nodup_cons]
        refine ⟨?_, ih _⟩
        intro hmem
        rcases List.mem_map.mp hmem with ⟨p, hp, hp1⟩
        have := dedupTake_not_seen f rest (f u :: seen) limit p hp
        exact this (by rw [hp1]; exact List.mem_cons_self _ _)

/-- C3 (amended): for every aggregated candidate list and every limit, the
discover pipeline returns at most `max limit 1` URLs (exactly the claimed
`limit` bound for `limit ≥ 1`; for `limit = 0` one URL can slip through
because the loop's break check runs only after the first append); the
returned URLs are pairwise distinct; each is the normalization of some
candidate; the output is ordered by the sort key descending, where a
missing timestamp counts as the minimal timestamp `datetime.min` (so such
entries sort after everything except entries timestamped exactly
`datetime.min`, with which they tie in input order); and the sort is
stable, so among candidates with equal keys the earlier-strategy entries
stay ahead. -/
theorem C3_discover_pipeline (cands : List (List Char × Option Nat))
    (limit : Nat) (k : Nat) :
    (discoverPipeline cands limit).length ≤ max limit 1
    ∧ (discoverPipeline cands limit).Nodup
    ∧ (∀ u ∈ discoverPipeline cands limit, ∃ c ∈ cands, u = pyNormalize c.1)
    ∧ (discoverPipelineAnn cands limit).Pairwise (fun a b => sortKey b ≤ sortKey a)
    ∧ (sortDesc cands).filter (fun p => sortKey p == k) =
        cands.filter (fun p => sortKey p == k) := by
  refine ⟨?_, ?_, ?_, ?_, sortDesc_stable cands k⟩
  · have h := dedupTake_length pyNormalize (sortDesc cands) [] limit
    simp only [discoverPipeline, discoverPipelineAnn, List.length_map]
    simp only [List.length_nil, Nat.sub_zero] at h
    exact h
  · exact dedupTake_nodup pyNormalize (sortDesc cands) [] limit
  · intro u hu
    rcases List.mem_map.mp hu with ⟨p, hp, rfl⟩
    have hmem := (dedupTake_sublist pyNormalize (sortDesc cands) [] limit).mem hp
    rcases List.mem_map.mp hmem with ⟨c, hc, hc2⟩
    exact ⟨c, mem_sortDesc c cands hc, by rw [← hc2]⟩
  · have hpw := sortDesc_pairwise cands
    have hmap : ((sortDesc cands).map fun p => (pyNormalize p.1, p.2)).Pairwise
        (fun a b => sortKey b ≤ sortKey a) := by
      rw [List.pairwise_map]
      simpa [sortKey] using hpw
    exact List.Pairwise.sublist (dedupTake_sublist pyNormalize (sortDesc cands) [] limit) hmap

set_option maxHeartbeats 1600000 in
/-- Counterexample for C3 as stated: with `limit = 0`, one URL is still
returned (`len(unique_urls) >= limit` is checked only after the first
append); and a candidate with no timestamp, listed before a candidate
timestamped `datetime.min`, stays *before* it in the output, so URLs
without a timestamp are not always placed after all URLs that have one. -/
theorem C3_claim_counterexample :
    ¬ ((discoverPipeline c3ex1 0).length ≤ 0)
    ∧ ¬ ((discoverPipelineAnn c3ex2 2).Pairwise
        (fun a b => a.2 = none → b.2 = none)) := by
  constructor
  · decide
  · decide

/-! ## Listing-page crawl (C5) -/

theorem crawlListingPage_mem (absUrls allowedDomains : List (List Char))
    (limit count : Nat) (p : List Char × Option Nat)
    (hp : p ∈ crawlListingPage absUrls allowedDomains limit count) :
    (pyStartsWith p.1 ("http://".toList) || pyStartsWith p.1 ("https://".toList)) = true
    ∧ (allowedDomains.any fun d =>
        pyContains (pyLower (pyUrlparse p.1).netloc) d ||
          pyEndsWith (pyLower (pyUrlparse p.1).netloc) ('.' :: d)) = true := by
  induction absUrls generalizing count with
  | nil => simp [crawlListingPage] at hp
  | cons u rest ih =>
    simp only [crawlListingPage] at hp
    split at hp
    · exact ih _ hp
    · rename_i hallow
      rw [not_not] at hallow
      split at hp
      · exact ih _ hp
      · rename_i hscheme
        rw [not_not] at hscheme
        split at hp
        · rcases List.mem_singleton.mp hp with rfl
          exact ⟨hscheme, hallow⟩
        · rcases List.mem_cons.mp hp with rfl | hp
          · exact ⟨hscheme, hallow⟩
          · exact ih _ hp

/-- C5 (amended): every URL kept by the listing-page crawl starts with
`http://` or `https://`, and its lowercased host *contains one of the
source's declared domains as a substring* (`domain in url_domain`) or ends
with `'.' + domain`; and the five-link scenario — three in-domain links,
two out-of-domain links whose hosts do not contain the domain — yields
exactly the three in-domain URLs. -/
theorem C5_listing_crawl (absUrls allowedDomains : List (List Char))
    (limit count : Nat) (p : List Char × Option Nat)
    (hp : p ∈ crawlListingPage absUrls allowedDomains limit count) :
    (pyStartsWith p.1 ("http://".toList) || pyStartsWith p.1 ("https://".toList)) = true
    ∧ (allowedDomains.any fun d =>
        pyContains (pyLower (pyUrlparse p.1).netloc) d ||
          pyEndsWith (pyLower (pyUrlparse p.1).netloc) ('.' :: d)) = true
    ∧ (crawlListingPage c5scenario [("example.com".toList)] 10 0 =
        [((("https://example.com/recipes/pasta".toList)), none),
         ((("https://www.example.com/recipes/soup".toList)), none),
         ((("https://example.com/recipes/salad".toList)), none)]) :=
  ⟨(crawlListingPage_mem absUrls allowedDomains limit count p hp).1,
   (crawlListingPage_mem absUrls allowedDomains limit count p hp).2,
   by decide⟩

/-- Witness for C5: the first scenario URL is in the crawl output. -/
theorem C5_listing_crawl_witness :
    ((("https://example.com/recipes/pasta".toList), (none : Option Nat)) ∈
      crawlListingPage c5scenario [("example.com".toList)] 10 0)
    ∧ (pyStartsWith ("https://example.com/recipes/pasta".toList) ("http://".toList) ||
        pyStartsWith ("https://example.com/recipes/pasta".toList) ("https://".toList)) = true := by
  refine ⟨by decide, ?_⟩
  exact (C5_listing_crawl c5scenario [("example.com".toList)] 10 0
    ((("https://example.com/recipes/pasta".toList)), none) (by decide)).1

/-- Counterexample for C5 as stated: a host that merely *contains*
`example.com` as a substring (here `badexample.com`) is kept by the crawl,
although it is neither equal to the declared domain nor a subdomain of it
(no dot-boundary suffix match). -/
theorem C5_claim_counterexample :
    ((c5bad, (none : Option Nat)) ∈
      crawlListingPage [c5bad] [("example.com".toList)] 10 0)
    ∧ ¬ (pyLower (pyUrlparse c5bad).netloc = ("example.com".toList))
    ∧ ¬ (pyEndsWith (pyLower (pyUrlparse c5bad).netloc)
          ('.' :: ("example.com".toList)) = true) := by
  refine ⟨by decide, by decide, by decide⟩
/-! ## Normalization invariance (C6) -/

/-- C6: two URLs whose parsed scheme, lowercased netloc, path and params
agree and whose query strings carry the same parameters after tracking
parameters are stripped — in particular two URLs differing only in
tracking query parameters, in the fragment, or in the case of the host —
normalize to the same string. -/
theorem C6_normalization_invariance (u1 u2 : List Char)
    (hs : (pyUrlparse u1).scheme = (pyUrlparse u2).scheme)
    (hn : pyLower (pyUrlparse u1).netloc = pyLower (pyUrlparse u2).netloc)
    (hp : (pyUrlparse u1).path = (pyUrlparse u2).path)
    (hpar : (pyUrlparse u1).params = (pyUrlparse u2).params)
    (hq : filterTracking (parseQs (pyUrlparse u1).query) =
      filterTracking (parseQs (pyUrlparse u2).query)) :
    pyNormalize u1 = pyNormalize u2 := by
  simp only [pyNormalize]
  rw [hs, hn, hp, hpar, hq]

set_option maxHeartbeats 1600000 in
/-- Witness for C6: the spec's own instance,
`normalize("https://X.com/a?utm_source=y#frag") == normalize("https://x.com/a")`. -/
theorem C6_normalization_invariance_witness :
    ((pyUrlparse ("https://X.com/a?utm_source=y#frag".toList)).scheme =
      (pyUrlparse ("https://x.com/a".toList)).scheme)
    ∧ (pyLower (pyUrlparse ("https://X.com/a?utm_source=y#frag".toList)).netloc =
      pyLower (pyUrlparse ("https://x.com/a".toList)).netloc)
    ∧ (filterTracking (parseQs (pyUrlparse ("https://X.com/a?utm_source=y#frag".toList)).query) =
      filterTracking (parseQs (pyUrlparse ("https://x.com/a".toList)).query))
    ∧ pyNormalize ("https://X.com/a?utm_source=y#frag".toList) =
      pyNormalize ("https://x.com/a".toList) := by
  refine ⟨by decide, by decide, by decide, ?_⟩
  exact C6_normalization_invariance _ _ (by decide) (by decide) (by decide)
    (by decide) (by decide)

/-! ## Normalization idempotence (C10) -/

set_option maxHeartbeats 1600000 in
/-- Counterexample for C10 as stated: `_normalize_url` is not idempotent.
On `https://x.com/a/;def/` the first pass strips only the trailing slash
(the `;` hides behind it, so no path parameters are split), giving
`https://x.com/a/;def`; re-normalizing that splits `def` off as path
parameters and strips the now-exposed trailing slash of the path, giving
the different string `https://x.com/a;def`.  (Verified against CPython
3.11: `normalize(normalize(u)) != normalize(u)` for this input.) -/
theorem C10_claim_counterexample :
    pyNormalize c10bad = ("https://x.com/a/;def".toList)
    ∧ pyNormalize (pyNormalize c10bad) = ("https://x.com/a;def".toList)
    ∧ ¬ (pyNormalize (pyNormalize c10bad) = pyNormalize c10bad) := by
  refine ⟨by decide, by decide, by decide⟩

/-! ## Towards C10: splitter and string lemmas -/

theorem splitOnceAt_eq_none (c : Char) (l : List Char) :
    splitOnceAt c l = none ↔ c ∉ l := by
  induction l with
  | nil => simp [splitOnceAt]
  | cons x xs ih =>
    simp only [splitOnceAt]
    split
    · rename_i hx
      subst hx
      simp
    · rename_i hx
      constructor
      · intro h
        cases hs : splitOnceAt c xs with
        | none =>
          intro hmem
          rcases List.mem_cons.mp hmem with rfl | hmem
          · exact hx rfl
          · exact ih.mp hs hmem
        | some ab => simp [hs] at h
      · intro hmem
        have : c ∉ xs := fun hc => hmem (List.mem_cons_of_mem _ hc)
        rw [ih.mpr this]

theorem splitOnceAt_eq_some (c : Char) (l a b : List Char)
    (h : splitOnceAt c l = some (a, b)) : l = a ++ c :: b ∧ c ∉ a := by
  induction l generalizing a with
  | nil => simp [splitOnceAt] at h
  | cons x xs ih =>
    simp only [splitOnceAt] at h
    split at h
    · rename_i hx
      subst hx
      cases h
      simp
    · rename_i hx
      cases hs : splitOnceAt c xs with
      | none => simp [hs] at h
      | some ab =>
        rcases ab with ⟨a', b'⟩
        rw [hs] at h
        cases h
        rcases ih a' hs with ⟨rfl, hna⟩
        refine ⟨rfl, ?_⟩
        intro hmem
        rcases List.mem_cons.mp hmem with rfl | hmem
        · exact hx rfl
        · exact hna hmem

theorem splitOnceAt_append (c : Char) (a b : List Char) (h : c ∉ a) :
    splitOnceAt c (a ++ c :: b) = some (a, b) := by
  induction a with
  | nil => simp [splitOnceAt]
  | cons x xs ih =>
    have hx : x ≠ c := fun hc => h (hc ▸ List.mem_cons_self x xs)
    have hxs : c ∉ xs := fun hc => h (List.mem_cons_of_mem _ hc)
    simp only [List.cons_append, splitOnceAt, if_neg hx]
    rw [show List.append xs (c :: b) = xs ++ c :: b from rfl, ih hxs]

theorem dropWhile_dropWhile {α : Type} (p : α → Bool) (l : List α) :
    (l.dropWhile p).dropWhile p = l.dropWhile p := by
  induction l with
  | nil => simp
  | cons x xs ih =>
    by_cases hx : p x
    · simp [List.dropWhile_cons, hx, ih]
    · simp [List.dropWhile_cons, hx]

theorem dropWhile_head_not {α : Type} (p : α → Bool) (x : α) (xs : List α)
    (h : (x :: xs).dropWhile p = x :: xs) : ¬ p x := by
  intro hp
  rw [List.dropWhile_cons, if_pos hp] at h
  have := congrArg List.length h
  have hle := (List.dropWhile_sublist (l := xs) (p := p)).length_le
  simp at this
  omega

theorem rstripSlash_decomp (s : List Char) :
    ∃ k, s = rstripSlash s ++ List.replicate k '/' := by
  have h := List.takeWhile_append_dropWhile (l := s.reverse) (p := fun c => c = '/')
  have htw : ∀ b ∈ s.reverse.takeWhile (fun c => c = '/'), b = '/' :=
    fun b hb => by simpa using List.mem_takeWhile_imp hb
  refine ⟨(s.reverse.takeWhile (fun c => c = '/')).length, ?_⟩
  conv_lhs => rw [← List.reverse_reverse s, ← h]
  rw [List.reverse_append]
  unfold rstripSlash
  congr 1
  rw [List.eq_replicate_iff]
  exact ⟨by rw [List.length_reverse], fun b hb => htw b (List.mem_reverse.mp hb)⟩

theorem rstripSlash_idem (s : List Char) :
    rstripSlash (rstripSlash s) = rstripSlash s := by
  unfold rstripSlash
  rw [List.reverse_reverse, dropWhile_dropWhile]

theorem rstripSlash_sub (s : List Char) (a : Char) (h : a ∈ rstripSlash s) : a ∈ s := by
  unfold rstripSlash at h
  rw [List.mem_reverse] at h
  have := List.dropWhile_sublist (l := s.reverse) (p := fun c => c = '/')
  exact List.mem_reverse.mp (this.mem h)

theorem rstripSlash_isPre (s : List Char) : rstripSlash s <+: s := by
  rcases rstripSlash_decomp s with ⟨k, hk⟩
  exact ⟨List.replicate k '/', hk.symm⟩

theorem rstripSlash_cons_slash (p : List Char) (hp : rstripSlash p = p)
    (hne : p ≠ []) : rstripSlash ('/' :: p) = '/' :: p := by
  unfold rstripSlash
  rw [List.reverse_cons]
  rcases hrev : p.reverse with _ | ⟨x, xs⟩
  · exact absurd (by simpa using congrArg List.reverse hrev) hne
  · have hfix : (x :: xs).dropWhile (fun c => c = '/') = x :: xs := by
      have : p.reverse.dropWhile (fun c => c = '/') = p.reverse := by
        have := congrArg List.reverse hp
        unfold rstripSlash at this
        rw [List.reverse_reverse] at this
        exact this
      rw [hrev] at this
      exact this
    have hx : ¬ (x = '/') := by
      have := dropWhile_head_not (fun c => c = '/') x xs hfix
      simpa using this
    rw [List.cons_append, List.dropWhile_cons, if_neg (by simpa using hx)]
    rw [← List.cons_append, ← hrev, List.reverse_append, List.reverse_reverse]
    simp

theorem toLower_eq (c : Char) :
    Char.toLower c = if c.toNat ≥ 65 ∧ c.toNat ≤ 90 then Char.ofNat (c.toNat + 32) else c :=
  rfl

theorem char_ofNat_add32_toNat (c : Char) (h : c.toNat ≥ 65 ∧ c.toNat ≤ 90) :
    (Char.ofNat (c.toNat + 32)).toNat = c.toNat + 32 := by
  have hv : (c.toNat + 32).isValidChar := by
    left
    omega
  rw [Char.ofNat, dif_pos hv]
  rfl

theorem toLower_toLower (c : Char) :
    Char.toLower (Char.toLower c) = Char.toLower c := by
  by_cases h : c.toNat ≥ 65 ∧ c.toNat ≤ 90
  · rw [toLower_eq c, if_pos h, toLower_eq, char_ofNat_add32_toNat c h, if_neg (by omega)]
  · rw [toLower_eq c, if_neg h, toLower_eq c, if_neg h]

theorem pyLower_idem (s : List Char) : pyLower (pyLower s) = pyLower s := by
  unfold pyLower
  rw [List.map_map]
  exact List.map_congr_left (fun c _ => toLower_toLower c)

theorem toLower_toNat_eq_or (c : Char) :
    Char.toLower c = c ∨ (97 ≤ (Char.toLower c).toNat ∧ (Char.toLower c).toNat ≤ 122) := by
  by_cases h : c.toNat ≥ 65 ∧ c.toNat ≤ 90
  · right
    rw [toLower_eq, if_pos h, char_ofNat_add32_toNat c h]
    omega
  · left
    rw [toLower_eq, if_neg h]

theorem not_mem_pyLower (spc : Char) (hs : ¬ (97 ≤ spc.toNat ∧ spc.toNat ≤ 122))
    (s : List Char) (h : spc ∉ s) : spc ∉ pyLower s := by
  intro hmem
  rcases List.mem_map.mp hmem with ⟨c, hc, hlc⟩
  rcases toLower_toNat_eq_or c with heq | hrange
  · rw [heq] at hlc
    exact h (hlc ▸ hc)
  · rw [hlc] at hrange
    exact hs hrange

theorem pyLower_len (s : List Char) : (pyLower s).length = s.length :=
  List.length_map s Char.toLower

/-! ## Towards C10: the `unquote_plus (quote_plus s) = s` roundtrip -/

theorem char_valid_nat (c : Char) :
    c.toNat < 0xd800 ∨ (0xdfff < c.toNat ∧ c.toNat < 0x110000) := c.valid

theorem utf8Bytes_eq (c : Char) :
    utf8Bytes c =
      if c.toNat < 0x80 then [c.toNat]
      else if c.toNat < 0x800 then [0xC0 + c.toNat / 0x40, 0x80 + c.toNat % 0x40]
      else if c.toNat < 0x10000 then
        [0xE0 + c.toNat / 0x1000, 0x80 + (c.toNat / 0x40) % 0x40, 0x80 + c.toNat % 0x40]
      else
        [0xF0 + c.toNat / 0x40000, 0x80 + (c.toNat / 0x1000) % 0x40,
         0x80 + (c.toNat / 0x40) % 0x40, 0x80 + c.toNat % 0x40] := rfl

theorem utf8DecodeReplace_cons (b : Nat) (bs : List Nat) :
    utf8DecodeReplace (b :: bs) =
      (if b < 0x80 then Char.ofNat b :: utf8DecodeReplace bs
      else if b < 0xC2 then replChar :: utf8DecodeReplace bs
      else if b ≤ 0xDF then
        match bs with
        | [] => [replChar]
        | b1 :: rest =>
          if isCont b1 then
            Char.ofNat ((b - 0xC0) * 0x40 + (b1 - 0x80)) :: utf8DecodeReplace rest
          else replChar :: utf8DecodeReplace (b1 :: rest)
      else if b ≤ 0xEF then
        match bs with
        | [] => [replChar]
        | b1 :: rest =>
          if cont3Lo b ≤ b1 ∧ b1 ≤ cont3Hi b then
            match rest with
            | [] => [replChar]
            | b2 :: rest2 =>
              if isCont b2 then
                Char.ofNat ((b - 0xE0) * 0x1000 + (b1 - 0x80) * 0x40 + (b2 - 0x80)) ::
                  utf8DecodeReplace rest2
              else replChar :: utf8DecodeReplace (b2 :: rest2)
          else replChar :: utf8DecodeReplace (b1 :: rest)
      else if b ≤ 0xF4 then
        match bs with
        | [] => [replChar]
        | b1 :: rest =>
          if cont4Lo b ≤ b1 ∧ b1 ≤ cont4Hi b then
            match rest with
            | [] => [replChar]
            | b2 :: rest2 =>
              if isCont b2 then
                match rest2 with
                | [] => [replChar]
                | b3 :: rest3 =>
                  if isCont b3 then
                    Char.ofNat ((b - 0xF0) * 0x40000 + (b1 - 0x80) * 0x1000 +
                        (b2 - 0x80) * 0x40 + (b3 - 0x80)) :: utf8DecodeReplace rest3
                  else replChar :: utf8DecodeReplace (b3 :: rest3)
              else replChar :: utf8DecodeReplace (b2 :: rest2)
          else replChar :: utf8DecodeReplace (b1 :: rest)
      else replChar :: utf8DecodeReplace bs) := by
  rw [utf8DecodeReplace.eq_def]


theorem utf8DecodeReplace_b1 (b : Nat) (bs : List Nat) (h : b < 0x80) :
    utf8DecodeReplace (b :: bs) = Char.ofNat b :: utf8DecodeReplace bs := by
  rw [utf8DecodeReplace_cons, if_pos h]

theorem utf8DecodeReplace_b2 (b b1 : Nat) (bs : List Nat)
    (h : 0xC2 ≤ b ∧ b ≤ 0xDF) (hc : isCont b1 = true) :
    utf8DecodeReplace (b :: b1 :: bs) =
      Char.ofNat ((b - 0xC0) * 0x40 + (b1 - 0x80)) :: utf8DecodeReplace bs := by
  rw [utf8DecodeReplace_cons, if_neg (by omega), if_neg (by omega), if_pos (by omega)]
  show (if isCont b1 = true then _ else _) = _
  rw [if_pos hc]

theorem utf8DecodeReplace_b3 (b b1 b2 : Nat) (bs : List Nat)
    (h : 0xE0 ≤ b ∧ b ≤ 0xEF) (hc1 : cont3Lo b ≤ b1 ∧ b1 ≤ cont3Hi b)
    (hc2 : isCont b2 = true) :
    utf8DecodeReplace (b :: b1 :: b2 :: bs) =
      Char.ofNat ((b - 0xE0) * 0x1000 + (b1 - 0x80) * 0x40 + (b2 - 0x80)) ::
        utf8DecodeReplace bs := by
  rw [utf8DecodeReplace_cons, if_neg (by omega), if_neg (by omega), if_neg (by omega),
    if_pos (by omega)]
  show (if cont3Lo b ≤ b1 ∧ b1 ≤ cont3Hi b then _ else _) = _
  rw [if_pos hc1]
  show (if isCont b2 = true then _ else _) = _
  rw [if_pos hc2]

theorem utf8DecodeReplace_b4 (b b1 b2 b3 : Nat) (bs : List Nat)
    (h : 0xF0 ≤ b ∧ b ≤ 0xF4) (hc1 : cont4Lo b ≤ b1 ∧ b1 ≤ cont4Hi b)
    (hc2 : isCont b2 = true) (hc3 : isCont b3 = true) :
    utf8DecodeReplace (b :: b1 :: b2 :: b3 :: bs) =
      Char.ofNat ((b - 0xF0) * 0x40000 + (b1 - 0x80) * 0x1000 +
          (b2 - 0x80) * 0x40 + (b3 - 0x80)) :: utf8DecodeReplace bs := by
  rw [utf8DecodeReplace_cons, if_neg (by omega), if_neg (by omega), if_neg (by omega),
    if_neg (by omega), if_pos (by omega)]
  show (if cont4Lo b ≤ b1 ∧ b1 ≤ cont4Hi b then _ else _) = _
  rw [if_pos hc1]
  show (if isCont b2 = true then _ else _) = _
  rw [if_pos hc2]
  show (if isCont b3 = true then _ else _) = _
  rw [if_pos hc3]


theorem utf8DecodeReplace_encodeChar (c : Char) (bs : List Nat) :
    utf8DecodeReplace (utf8Bytes c ++ bs) = c :: utf8DecodeReplace bs := by
  have hv := char_valid_nat c
  rw [utf8Bytes_eq]
  by_cases h1 : c.toNat < 0x80
  · simp only [if_pos h1, List.cons_append, List.nil_append]
    rw [utf8DecodeReplace_b1 _ _ h1, Char.ofNat_toNat]
  · by_cases h2 : c.toNat < 0x800
    · simp only [if_neg h1, if_pos h2, List.cons_append, List.nil_append]
      rw [utf8DecodeReplace_b2 _ _ _ (by omega)
        (by simp only [isCont, decide_eq_true_eq]; omega)]
      have harith : (0xC0 + c.toNat / 0x40 - 0xC0) * 0x40 + (0x80 + c.toNat % 0x40 - 0x80)
          = c.toNat := by omega
      rw [harith, Char.ofNat_toNat]
    · by_cases h3 : c.toNat < 0x10000
      · simp only [if_neg h1, if_neg h2, if_pos h3, List.cons_append, List.nil_append]
        have hcont1 : cont3Lo (0xE0 + c.toNat / 0x1000) ≤ 0x80 + c.toNat / 0x40 % 0x40 ∧
            0x80 + c.toNat / 0x40 % 0x40 ≤ cont3Hi (0xE0 + c.toNat / 0x1000) := by
          unfold cont3Lo cont3Hi
          constructor
          · split
            · rename_i he
              have hz : c.toNat / 0x1000 = 0 := by omega
              have hge : 0x800 ≤ c.toNat := by omega
              omega
            · omega
          · split
            · rename_i he
              have hz : c.toNat / 0x1000 = 13 := by omega
              omega
            · omega
        rw [utf8DecodeReplace_b3 _ _ _ _ (by omega) hcont1
          (by simp only [isCont, decide_eq_true_eq]; omega)]
        have harith : (0xE0 + c.toNat / 0x1000 - 0xE0) * 0x1000 +
            (0x80 + c.toNat / 0x40 % 0x40 - 0x80) * 0x40 +
            (0x80 + c.toNat % 0x40 - 0x80) = c.toNat := by omega
        rw [harith, Char.ofNat_toNat]
      · simp only [if_neg h1, if_neg h2, if_neg h3, List.cons_append, List.nil_append]
        have hcont1 : cont4Lo (0xF0 + c.toNat / 0x40000) ≤ 0x80 + c.toNat / 0x1000 % 0x40 ∧
            0x80 + c.toNat / 0x1000 % 0x40 ≤ cont4Hi (0xF0 + c.toNat / 0x40000) := by
          unfold cont4Lo cont4Hi
          constructor
          · split
            · rename_i he
              have hz : c.toNat / 0x40000 = 0 := by omega
              have hge : 0x10000 ≤ c.toNat := by omega
              omega
            · omega
          · split
            · rename_i he
              have hz : c.toNat / 0x40000 = 4 := by omega
              have hlt : c.toNat < 0x110000 := by omega
              omega
            · omega
        rw [utf8DecodeReplace_b4 _ _ _ _ _ (by omega) hcont1
          (by simp only [isCont, decide_eq_true_eq]; omega)
          (by simp only [isCont, decide_eq_true_eq]; omega)]
        have harith : (0xF0 + c.toNat / 0x40000 - 0xF0) * 0x40000 +
            (0x80 + c.toNat / 0x1000 % 0x40 - 0x80) * 0x1000 +
            (0x80 + c.toNat / 0x40 % 0x40 - 0x80) * 0x40 +
            (0x80 + c.toNat % 0x40 - 0x80) = c.toNat := by omega
        rw [harith, Char.ofNat_toNat]

theorem utf8DecodeReplace_flat (s : List Char) :
    utf8DecodeReplace (s.flatMap utf8Bytes) = s := by
  induction s with
  | nil => simp [utf8DecodeReplace]
  | cons c cs ih => rw [List.flatMap_cons, utf8DecodeReplace_encodeChar, ih]

theorem hexVal_hexDigit (n : Nat) (h : n < 16) : hexVal (hexDigit n) = some n := by
  interval_cases n <;> decide

theorem utf8Bytes_lt_256 (c : Char) : ∀ b ∈ utf8Bytes c, b < 256 := by
  have hv := char_valid_nat c
  intro b hb
  rw [utf8Bytes_eq] at hb
  split at hb
  · simp at hb
    omega
  · split at hb
    · simp at hb
      rcases hb with rfl | rfl <;> omega
    · split at hb
      · simp at hb
        rcases hb with rfl | rfl | rfl <;> omega
      · simp at hb
        rcases hb with rfl | rfl | rfl | rfl <;> omega

theorem char_ofNat_small_toNat (n : Nat) (h : n < 0xd800) : (Char.ofNat n).toNat = n := by
  have hv : n.isValidChar := Or.inl h
  rw [Char.ofNat, dif_pos hv]
  rfl

theorem unquoteTokens_pct (b : Nat) (hb : b < 256) (rest : List Char) :
    unquoteTokens (pctByte b ++ rest) = Sum.inl b :: unquoteTokens rest := by
  unfold pctByte
  rw [List.cons_append, List.cons_append, List.cons_append, List.nil_append]
  rw [unquoteTokens]
  rw [if_pos rfl]
  rw [hexVal_hexDigit (b / 16) (by omega), hexVal_hexDigit (b % 16) (by omega)]
  show Sum.inl (16 * (b / 16) + b % 16) :: unquoteTokens rest = Sum.inl b :: unquoteTokens rest
  have hbb : 16 * (b / 16) + b % 16 = b := by omega
  rw [hbb]

theorem unquoteTokens_pctList (bs : List Nat) (h : ∀ b ∈ bs, b < 256) (rest : List Char) :
    unquoteTokens (bs.flatMap pctByte ++ rest) = bs.map Sum.inl ++ unquoteTokens rest := by
  induction bs with
  | nil => simp
  | cons b bs ih =>
    rw [List.flatMap_cons, List.append_assoc,
      unquoteTokens_pct b (h b (List.mem_cons_self _ _)),
      ih (fun x hx => h x (List.mem_cons_of_mem _ hx)), List.map_cons, List.cons_append]

theorem unquoteTokens_ascii (c : Char) (hpc : c ≠ '%') (hlt : c.toNat < 0x80)
    (rest : List Char) :
    unquoteTokens (c :: rest) = Sum.inl c.toNat :: unquoteTokens rest := by
  cases rest with
  | nil => simp [unquoteTokens, hpc, hlt]
  | cons a rest' =>
    cases rest' with
    | nil => simp [unquoteTokens, hpc, hlt]
    | cons b rest2 => simp [unquoteTokens, hpc, hlt]

theorem unquotePlus_def (s : List Char) :
    unquotePlus s = decodeTokens (unquoteTokens (plusToSpace s)) [] := rfl

theorem mem_quotePlusChar (c x : Char) (hx : x ∈ quotePlusChar c) :
    x = '+' ∨ isAlwaysSafe x = true ∨ x = '%' ∨ (∃ n, n < 16 ∧ x = hexDigit n) := by
  unfold quotePlusChar at hx
  split at hx
  · simp at hx
    left
    exact hx
  · rename_i hsafe
    split at hx
    · rename_i hs
      simp at hx
      right; left
      rw [hx]
      exact hs
    · rcases List.mem_flatMap.mp hx with ⟨b, hb, hxb⟩
      have hb256 := utf8Bytes_lt_256 c b hb
      unfold pctByte at hxb
      simp at hxb
      rcases hxb with rfl | rfl | rfl
      · right; right; left; rfl
      · right; right; right
        exact ⟨b / 16, by omega, rfl⟩
      · right; right; right
        exact ⟨b % 16, by omega, rfl⟩

theorem plusToSpace_quoteChunk (c : Char) :
    plusToSpace (quotePlusChar c) =
      if c = ' ' then [' ']
      else if isAlwaysSafe c then [c]
      else (utf8Bytes c).flatMap pctByte := by
  unfold quotePlusChar plusToSpace
  split
  · simp
  · split
    · rename_i hsafe
      have hplus : c ≠ '+' := by
        intro h
        rw [h] at hsafe
        exact absurd hsafe (by decide)
      simp [hplus]
    · rw [List.map_congr_left, List.map_id]
      intro x hx
      have hnp : x ≠ '+' := by
        rcases List.mem_flatMap.mp hx with ⟨b, hb, hxb⟩
        unfold pctByte at hxb
        have hb256 := utf8Bytes_lt_256 c b hb
        simp at hxb
        rcases hxb with rfl | rfl | rfl
        · decide
        · unfold hexDigit
          split <;>
          · intro hcon
            have hco := congrArg Char.toNat hcon
            rw [char_ofNat_small_toNat _ (by omega),
              show ('+').toNat = 43 from rfl] at hco
            omega
        · unfold hexDigit
          split <;>
          · intro hcon
            have hco := congrArg Char.toNat hcon
            rw [char_ofNat_small_toNat _ (by omega),
              show ('+').toNat = 43 from rfl] at hco
            omega
      simp [hnp]

theorem unquoteTokens_quote (s : List Char) :
    unquoteTokens (plusToSpace (quotePlus s)) = (s.flatMap utf8Bytes).map Sum.inl := by
  induction s with
  | nil => simp [quotePlus, plusToSpace, unquoteTokens]
  | cons c cs ih =>
    unfold quotePlus
    rw [List.flatMap_cons]
    unfold plusToSpace
    rw [List.map_append]
    have hchunk := plusToSpace_quoteChunk c
    unfold plusToSpace at hchunk
    rw [hchunk]
    rw [List.flatMap_cons, List.map_append]
    split
    · rename_i hsp
      subst hsp
      rw [List.cons_append, List.nil_append,
        unquoteTokens_ascii ' ' (by decide) (by decide)]
      rw [show (' '.toNat) = 32 from rfl]
      rw [show utf8Bytes ' ' = [32] from rfl]
      rw [List.map_cons, List.map_nil, List.cons_append, List.nil_append]
      exact congrArg _ ih
    · split
      · rename_i hsafe
        have hascii : c.toNat < 0x80 := by
          unfold isAlwaysSafe isAsciiAlphaNum at hsafe
          simp only [Bool.or_eq_true, decide_eq_true_eq] at hsafe
          rcases hsafe with (h | h | h) | h
          · have h2 := h.2
            rw [Char.le_def, UInt32.le_def, BitVec.le_def] at h2
            have : c.toNat ≤ 122 := h2
            omega
          · have h2 := h.2
            rw [Char.le_def, UInt32.le_def, BitVec.le_def] at h2
            have : c.toNat ≤ 90 := h2
            omega
          · have h2 := h.2
            rw [Char.le_def, UInt32.le_def, BitVec.le_def] at h2
            have : c.toNat ≤ 57 := h2
            omega
          · rcases h with rfl | rfl | rfl | rfl <;> decide
        have hpc : c ≠ '%' := by
          intro h
          subst h
          exact absurd hsafe (by decide)
        rw [List.cons_append, List.nil_append, unquoteTokens_ascii c hpc hascii]
        have hb : utf8Bytes c = [c.toNat] := by
          unfold utf8Bytes
          rw [if_pos hascii]
        rw [hb, List.map_cons, List.map_nil, List.cons_append, List.nil_append]
        exact congrArg _ ih
      · rw [unquoteTokens_pctList (utf8Bytes c) (utf8Bytes_lt_256 c)]
        exact congrArg _ ih

theorem decodeTokens_inl (bs : List Nat) (acc : List Nat) :
    decodeTokens (bs.map Sum.inl) acc = utf8DecodeReplace (acc.reverse ++ bs) := by
  induction bs generalizing acc with
  | nil => simp [decodeTokens]
  | cons b bs ih =>
    rw [List.map_cons, decodeTokens, ih]
    rw [List.reverse_cons, List.append_assoc]
    rfl

theorem unquotePlus_quotePlus (s : List Char) : unquotePlus (quotePlus s) = s := by
  rw [unquotePlus_def, unquoteTokens_quote, decodeTokens_inl]
  rw [List.reverse_nil, List.nil_append, utf8DecodeReplace_flat]

/-! ## Towards C10: the query-string round trip -/


theorem mem_joinSep (c : Char) (parts : List (List Char)) (x : Char)
    (hx : x ∈ joinSep c parts) : x = c ∨ ∃ p ∈ parts, x ∈ p := by
  induction parts with
  | nil => simp [joinSep] at hx
  | cons p ps ih =>
    cases ps with
    | nil =>
      right
      exact ⟨p, List.mem_cons_self p [], by simpa [joinSep] using hx⟩
    | cons q qs =>
      rw [show joinSep c (p :: q :: qs) = p ++ c :: joinSep c (q :: qs) from rfl] at hx
      rcases List.mem_append.mp hx with hp | hrest
      · exact Or.inr ⟨p, List.mem_cons_self p _, hp⟩
      · rcases List.mem_cons.mp hrest with rfl | hm
        · exact Or.inl rfl
        · rcases ih hm with rfl | ⟨r, hr, hxr⟩
          · exact Or.inl rfl
          · exact Or.inr ⟨r, List.mem_cons_of_mem _ hr, hxr⟩

theorem splitAllAux_cons_sep (c : Char) (xs cur : List Char) :
    splitAllAux c (c :: xs) cur = cur.reverse :: splitAllAux c xs [] := by
  simp [splitAllAux]

theorem splitAllAux_no_sep (c : Char) (x : List Char) (h : c ∉ x) :
    ∀ r cur, splitAllAux c (x ++ r) cur = splitAllAux c r (x.reverse ++ cur) := by
  induction x with
  | nil => intro r cur; simp
  | cons a as ih =>
    intro r cur
    have ha : ¬ (a = c) := fun hc => h (hc ▸ List.mem_cons_self a as)
    have has : c ∉ as := fun hc => h (List.mem_cons_of_mem _ hc)
    rw [List.cons_append, show splitAllAux c (a :: (as ++ r)) cur =
      if a = c then cur.reverse :: splitAllAux c (as ++ r) []
      else splitAllAux c (as ++ r) (a :: cur) from rfl, if_neg ha, ih has]
    simp

theorem splitAll_joinSep (c : Char) (parts : List (List Char))
    (hne : parts ≠ []) (hnc : ∀ p ∈ parts, c ∉ p) :
    splitAll c (joinSep c parts) = parts := by
  induction parts with
  | nil => exact absurd rfl hne
  | cons p ps ih =>
    cases ps with
    | nil =>
      show splitAllAux c (joinSep c [p]) [] = [p]
      rw [show joinSep c [p] = p from rfl, ← List.append_nil p,
        splitAllAux_no_sep c p (hnc p (List.mem_cons_self p []))]
      simp [splitAllAux]
    | cons q qs =>
      show splitAllAux c (joinSep c (p :: q :: qs)) [] = p :: q :: qs
      rw [show joinSep c (p :: q :: qs) = p ++ c :: joinSep c (q :: qs) from rfl,
        splitAllAux_no_sep c p (hnc p (List.mem_cons_self p _)),
        splitAllAux_cons_sep]
      have := ih (by simp) (fun r hr => hnc r (List.mem_cons_of_mem _ hr))
      rw [show splitAllAux c (joinSep c (q :: qs)) [] = splitAll c (joinSep c (q :: qs)) from
        rfl, this]
      simp

theorem utf8Bytes_ne_nil (c : Char) : utf8Bytes c ≠ [] := by
  rw [utf8Bytes_eq]
  split
  · simp
  · split
    · simp
    · split <;> simp

theorem quotePlusChar_ne_nil (c : Char) : quotePlusChar c ≠ [] := by
  unfold quotePlusChar
  split
  · simp
  · split
    · simp
    · rcases hb : utf8Bytes c with _ | ⟨b, bs⟩
      · exact absurd hb (utf8Bytes_ne_nil c)
      · simp [pctByte]

theorem quotePlus_ne_nil (s : List Char) (h : s ≠ []) : quotePlus s ≠ [] := by
  cases s with
  | nil => exact absurd rfl h
  | cons c rest =>
    unfold quotePlus
    rw [List.flatMap_cons]
    intro hx
    exact quotePlusChar_ne_nil c (List.append_eq_nil.mp hx).1

theorem hexDigit_range (n : Nat) (h : n < 16) :
    ('0' ≤ hexDigit n ∧ hexDigit n ≤ '9') ∨ ('A' ≤ hexDigit n ∧ hexDigit n ≤ 'F') := by
  interval_cases n <;> decide

theorem not_mem_quotePlus (x : Char) (s : List Char)
    (h1 : x ≠ '+') (h2 : isAlwaysSafe x = false) (h3 : x ≠ '%')
    (h4 : ¬ (('0' ≤ x ∧ x ≤ '9') ∨ ('A' ≤ x ∧ x ≤ 'F'))) : x ∉ quotePlus s := by
  intro hm
  rcases List.mem_flatMap.mp hm with ⟨c, _, hxc⟩
  rcases mem_quotePlusChar c x hxc with rfl | hsafe | rfl | ⟨n, hn, rfl⟩
  · exact h1 rfl
  · rw [hsafe] at h2; exact Bool.true_eq_false.mp h2
  · exact h3 rfl
  · exact h4 (hexDigit_range n hn)

theorem qsSafe_of_mem_quotePlusChar (c x : Char) (hx : x ∈ quotePlusChar c) :
    qsSafe x = true := by
  rcases mem_quotePlusChar c x hx with rfl | hsafe | rfl | ⟨n, hn, rfl⟩
  · decide
  · simp [qsSafe, hsafe]
  · decide
  · rcases hexDigit_range n hn with ⟨h1, h2⟩ | ⟨h1, h2⟩ <;>
      simp [qsSafe, h1, h2]

theorem qsSafe_of_mem_quotePlus (s : List Char) (x : Char) (hx : x ∈ quotePlus s) :
    qsSafe x = true := by
  rcases List.mem_flatMap.mp hx with ⟨c, _, hxc⟩
  exact qsSafe_of_mem_quotePlusChar c x hxc

theorem qsSafe_of_mem_urlencodeQs (d : List (List Char × List (List Char))) (x : Char)
    (hx : x ∈ urlencodeQs d) : qsSafe x = true := by
  rcases mem_joinSep '&' _ x hx with rfl | ⟨p, hp, hxp⟩
  · decide
  · rcases List.mem_flatMap.mp hp with ⟨kv, _, hpm⟩
    rcases List.mem_map.mp hpm with ⟨v, _, rfl⟩
    rcases List.mem_append.mp hxp with hk | hv
    · exact qsSafe_of_mem_quotePlus _ x hk
    · rcases List.mem_cons.mp hv with rfl | hv
      · decide
      · exact qsSafe_of_mem_quotePlus _ x hv

theorem not_mem_urlencodeQs (d : List (List Char × List (List Char))) (x : Char)
    (h : qsSafe x = false) : x ∉ urlencodeQs d := fun hm => by
  rw [qsSafe_of_mem_urlencodeQs d x hm] at h
  exact Bool.true_eq_false.mp h

theorem parseQslPart_eval (k v : List Char) (hv : v ≠ []) :
    parseQslPart (quotePlus k ++ '=' :: quotePlus v) = [(k, v)] := by
  unfold parseQslPart
  have hne : (quotePlus k ++ '=' :: quotePlus v) ≠ [] := by simp
  have hsplit : splitOnceAt '=' (quotePlus k ++ '=' :: quotePlus v) =
      some (quotePlus k, quotePlus v) :=
    splitOnceAt_append '=' _ _
      (not_mem_quotePlus '=' _ (by decide) (by decide) (by decide) (by decide))
  rw [if_neg hne, hsplit]
  show (if quotePlus v = [] then []
    else [(unquotePlus (quotePlus k), unquotePlus (quotePlus v))]) = [(k, v)]
  rw [if_neg (quotePlus_ne_nil v hv), unquotePlus_quotePlus, unquotePlus_quotePlus]

theorem parseQslPart_map_eval (k : List Char) (vlist : List (List Char))
    (hv : ∀ v ∈ vlist, v ≠ []) :
    ((vlist.map fun v => quotePlus k ++ '=' :: quotePlus v).flatMap parseQslPart) =
      vlist.map fun v => (k, v) := by
  induction vlist with
  | nil => rfl
  | cons v vs ih =>
    rw [List.map_cons, List.map_cons, List.flatMap_cons,
      ih (fun a ha => hv a (List.mem_cons_of_mem _ ha)),
      parseQslPart_eval k v (hv v (List.mem_cons_self _ _)), List.singleton_append]

/-- `parse_qsl (urlencode D)` recovers the flattened pair list. -/
theorem parseQsl_urlencodeQs (D : List (List Char × List (List Char)))
    (hg : ∀ kv ∈ D, kv.2 ≠ []) (hv : ∀ kv ∈ D, ∀ v ∈ kv.2, v ≠ []) :
    parseQsl (urlencodeQs D) =
      D.flatMap fun kv => kv.2.map fun v => (kv.1, v) := by
  rcases hD : D with _ | ⟨kv0, Drest⟩
  · decide
  rw [← hD]
  unfold parseQsl urlencodeQs
  have hparts : (D.flatMap fun kv => kv.2.map fun v =>
      quotePlus kv.1 ++ '=' :: quotePlus v) ≠ [] := by
    rw [hD, List.flatMap_cons]
    rcases hvs : kv0.2 with _ | ⟨v, vs⟩
    · exact absurd hvs (hg kv0 (by rw [hD]; exact List.mem_cons_self _ _))
    · simp
  have hnc : ∀ p ∈ (D.flatMap fun kv => kv.2.map fun v =>
      quotePlus kv.1 ++ '=' :: quotePlus v), '&' ∉ p := by
    intro p hp
    rcases List.mem_flatMap.mp hp with ⟨kv, _, hpm⟩
    rcases List.mem_map.mp hpm with ⟨v, _, rfl⟩
    intro hmem
    rcases List.mem_append.mp hmem with hk | hv2
    · exact not_mem_quotePlus '&' _ (by decide) (by decide) (by decide) (by decide) hk
    · rcases List.mem_cons.mp hv2 with heq | hv3
      · exact absurd heq (by decide)
      · exact not_mem_quotePlus '&' _ (by decide) (by decide) (by decide) (by decide) hv3
  rw [splitAll_joinSep '&' _ hparts hnc]
  clear hparts hnc hD hg
  induction D with
  | nil => rfl
  | cons kv Drest ih =>
    rw [List.flatMap_cons, List.flatMap_cons, List.flatMap_append,
      ih (fun a ha => hv a (List.mem_cons_of_mem _ ha)),
      parseQslPart_map_eval kv.1 kv.2 (hv kv (List.mem_cons_self _ _))]

/-! Grouping: folding `qsInsert` over a flattened dictionary recovers it. -/

theorem qsInsert_not_mem (k : List Char) (v : List Char)
    (acc : List (List Char × List (List Char))) (h : ∀ kv ∈ acc, kv.1 ≠ k) :
    qsInsert k v acc = acc ++ [(k, [v])] := by
  induction acc with
  | nil => rfl
  | cons kv rest ih =>
    rcases kv with ⟨k', vs⟩
    rw [qsInsert, if_neg (by
      intro he
      exact h (k', vs) (List.mem_cons_self _ _) he)]
    rw [ih (fun a ha => h a (List.mem_cons_of_mem _ ha))]
    rfl

theorem qsInsert_last (k : List Char) (v : List Char) (vs : List (List Char))
    (acc : List (List Char × List (List Char))) (h : ∀ kv ∈ acc, kv.1 ≠ k) :
    qsInsert k v (acc ++ [(k, vs)]) = acc ++ [(k, vs ++ [v])] := by
  induction acc with
  | nil => rw [List.nil_append, List.nil_append, qsInsert, if_pos rfl]
  | cons kv rest ih =>
    rcases kv with ⟨k', vs'⟩
    rw [List.cons_append, qsInsert, if_neg (by
      intro he
      exact h (k', vs') (List.mem_cons_self _ _) he)]
    rw [ih (fun a ha => h a (List.mem_cons_of_mem _ ha))]
    rfl

theorem foldl_qsInsert_same_key (k : List Char) (vlist : List (List Char)) :
    ∀ (vs : List (List Char)) (acc : List (List Char × List (List Char))),
      (∀ kv ∈ acc, kv.1 ≠ k) →
      List.foldl (fun d kv => qsInsert kv.1 kv.2 d) (acc ++ [(k, vs)])
        (vlist.map fun v => (k, v)) = acc ++ [(k, vs ++ vlist)] := by
  induction vlist with
  | nil => intro vs acc _; simp
  | cons v vrest ih =>
    intro vs acc h
    rw [List.map_cons, List.foldl_cons]
    show List.foldl _ (qsInsert k v (acc ++ [(k, vs)])) _ = _
    rw [qsInsert_last k v vs acc h, ih (vs ++ [v]) acc h]
    simp

theorem foldl_qsInsert_flatten (D : List (List Char × List (List Char))) :
    ∀ (acc : List (List Char × List (List Char))),
      (D.map Prod.fst).Nodup →
      (∀ kv ∈ D, ∀ kv2 ∈ acc, kv2.1 ≠ kv.1) →
      (∀ kv ∈ D, kv.2 ≠ []) →
      List.foldl (fun d kv => qsInsert kv.1 kv.2 d) acc
        (D.flatMap fun kv => kv.2.map fun v => (kv.1, v)) = acc ++ D := by
  induction D with
  | nil => intro acc _ _ _; simp
  | cons kv Drest ih =>
    intro acc hnd hdis hg
    rcases kv with ⟨k, vs⟩
    rcases hvs : vs with _ | ⟨v0, vrest⟩
    · exact absurd hvs (hg (k, vs) (List.mem_cons_self _ _))
    subst hvs
    rw [List.flatMap_cons, List.foldl_append, List.map_cons, List.foldl_cons]
    have hacc : ∀ kv2 ∈ acc, kv2.1 ≠ k :=
      fun a ha => hdis (k, v0 :: vrest) (List.mem_cons_self _ _) a ha
    show List.foldl _ (List.foldl _ (qsInsert k v0 acc) _) _ = _
    rw [qsInsert_not_mem k v0 acc hacc,
      foldl_qsInsert_same_key k vrest [v0] acc hacc, List.singleton_append]
    have hk_not : k ∉ Drest.map Prod.fst := by
      rw [List.map_cons] at hnd
      exact (List.nodup_cons.mp hnd).1
    rw [ih (acc ++ [(k, v0 :: vrest)]) (by
        rw [List.map_cons] at hnd
        exact (List.nodup_cons.mp hnd).2)
      (by
        intro a ha b hb
        rcases List.mem_append.mp hb with hb1 | hb2
        · exact hdis a (List.mem_cons_of_mem _ ha) b hb1
        · rcases List.mem_cons.mp hb2 with rfl | hb3
          · intro he
            have hmem : a.1 ∈ Drest.map Prod.fst := List.mem_map_of_mem Prod.fst ha
            rw [← he] at hmem
            exact hk_not hmem
          · simp at hb3)
      (fun a ha => hg a (List.mem_cons_of_mem _ ha))]
    simp

/-! Invariants of `parse_qs` output. -/

theorem qsInsert_fst_eq (k : List Char) (v : List Char)
    (acc : List (List Char × List (List Char))) :
    (qsInsert k v acc).map Prod.fst =
      if k ∈ acc.map Prod.fst then acc.map Prod.fst else acc.map Prod.fst ++ [k] := by
  induction acc with
  | nil => rfl
  | cons kv rest ih =>
    rcases kv with ⟨k', vs⟩
    by_cases he : k' = k
    · subst he
      rw [qsInsert, if_pos rfl, List.map_cons, List.map_cons,
        if_pos (List.mem_cons_self _ _)]
    · rw [qsInsert, if_neg he, List.map_cons, List.map_cons, ih]
      by_cases hmem : k ∈ rest.map Prod.fst
      · rw [if_pos hmem, if_pos (List.mem_cons_of_mem _ hmem)]
      · rw [if_neg hmem, if_neg (by
          intro hc
          rcases List.mem_cons.mp hc with hc1 | hc2
          · exact he hc1.symm
          · exact hmem hc2)]
        rfl

theorem qsInsert_fst_nodup (k : List Char) (v : List Char)
    (acc : List (List Char × List (List Char))) (h : (acc.map Prod.fst).Nodup) :
    ((qsInsert k v acc).map Prod.fst).Nodup := by
  rw [qsInsert_fst_eq]
  by_cases hmem : k ∈ acc.map Prod.fst
  · rw [if_pos hmem]; exact h
  · rw [if_neg hmem]
    refine List.Nodup.append h (List.nodup_singleton k) ?_
    intro a ha hb
    rcases List.mem_singleton.mp hb with rfl
    exact hmem ha

theorem qsInsert_groups_ne_nil (k : List Char) (v : List Char)
    (acc : List (List Char × List (List Char))) (h : ∀ kv ∈ acc, kv.2 ≠ []) :
    ∀ kv ∈ qsInsert k v acc, kv.2 ≠ [] := by
  induction acc with
  | nil =>
    intro kv hkv
    rcases List.mem_singleton.mp hkv with rfl
    simp
  | cons kv0 rest ih =>
    rcases kv0 with ⟨k', vs⟩
    intro kv hkv
    rw [qsInsert] at hkv
    split at hkv
    · rcases List.mem_cons.mp hkv with rfl | hm
      · simp
      · exact h kv (List.mem_cons_of_mem _ hm)
    · rcases List.mem_cons.mp hkv with rfl | hm
      · exact h (k', vs) (List.mem_cons_self _ _)
      · exact ih (fun a ha => h a (List.mem_cons_of_mem _ ha)) kv hm

theorem qsInsert_vals_ne_nil (k : List Char) (v : List Char) (hv : v ≠ [])
    (acc : List (List Char × List (List Char)))
    (h : ∀ kv ∈ acc, ∀ w ∈ kv.2, w ≠ []) :
    ∀ kv ∈ qsInsert k v acc, ∀ w ∈ kv.2, w ≠ [] := by
  induction acc with
  | nil =>
    intro kv hkv w hw
    rcases List.mem_singleton.mp hkv with rfl
    rcases List.mem_singleton.mp hw with rfl
    exact hv
  | cons kv0 rest ih =>
    rcases kv0 with ⟨k', vs⟩
    intro kv hkv w hw
    rw [qsInsert] at hkv
    split at hkv
    · rcases List.mem_cons.mp hkv with rfl | hm
      · rcases List.mem_append.mp hw with hw1 | hw2
        · exact h (k', vs) (List.mem_cons_self _ _) w hw1
        · rcases List.mem_singleton.mp hw2 with rfl
          exact hv
      · exact h kv (List.mem_cons_of_mem _ hm) w hw
    · rcases List.mem_cons.mp hkv with rfl | hm
      · exact h (k', vs) (List.mem_cons_self _ _) w hw
      · exact ih (fun a ha => h a (List.mem_cons_of_mem _ ha)) kv hm w hw

theorem unquoteTokens_ne_nil (c : Char) (rest : List Char) :
    unquoteTokens (c :: rest) ≠ [] := by
  by_cases hpc : c = '%'
  · subst hpc
    cases rest with
    | nil => simp [unquoteTokens]
    | cons a rest1 =>
      cases rest1 with
      | nil => simp [unquoteTokens]
      | cons b rest2 =>
        rcases ha : hexVal a with _ | na <;> rcases hb : hexVal b with _ | nb <;>
          simp [unquoteTokens, ha, hb]
  · cases rest with
    | nil => simp [unquoteTokens, hpc]
    | cons a rest1 =>
      cases rest1 with
      | nil => simp [unquoteTokens, hpc]
      | cons b rest2 => simp [unquoteTokens, hpc]

theorem utf8DecodeReplace_ne_nil (b : Nat) (bs : List Nat) :
    utf8DecodeReplace (b :: bs) ≠ [] := by
  rw [utf8DecodeReplace_cons]
  repeat' split
  all_goals simp

theorem decodeTokens_ne_nil (ts : List (Nat ⊕ Char)) :
    ∀ acc : List Nat, ts ≠ [] ∨ acc ≠ [] → decodeTokens ts acc ≠ [] := by
  induction ts with
  | nil =>
    intro acc h
    rcases h with h | h
    · exact absurd rfl h
    · rcases hr : acc.reverse with _ | ⟨b, bs⟩
      · exact absurd (by simpa using congrArg List.reverse hr) h
      · rw [decodeTokens, hr]
        exact utf8DecodeReplace_ne_nil b bs
  | cons t ts ih =>
    intro acc _
    cases t with
    | inl b =>
      rw [decodeTokens]
      exact ih (b :: acc) (Or.inr (by simp))
    | inr c =>
      rw [decodeTokens]
      simp

theorem unquotePlus_ne_nil (s : List Char) (h : s ≠ []) : unquotePlus s ≠ [] := by
  rcases s with _ | ⟨c, rest⟩
  · exact absurd rfl h
  rw [unquotePlus_def]
  unfold plusToSpace
  rw [List.map_cons]
  exact decodeTokens_ne_nil _ [] (Or.inl (unquoteTokens_ne_nil _ _))

theorem parseQslPart_snd_ne_nil (part : List Char) :
    ∀ pr ∈ parseQslPart part, pr.2 ≠ [] := by
  intro pr hpr
  unfold parseQslPart at hpr
  split at hpr
  · simp at hpr
  · split at hpr
    · simp at hpr
    · rename_i n v heq
      split at hpr
      · simp at hpr
      · rename_i hvne
        rcases List.mem_singleton.mp hpr with rfl
        exact unquotePlus_ne_nil v hvne

theorem parseQsl_snd_ne_nil (q : List Char) : ∀ pr ∈ parseQsl q, pr.2 ≠ [] := by
  intro pr hpr
  unfold parseQsl at hpr
  rcases List.mem_flatMap.mp hpr with ⟨part, _, hm⟩
  exact parseQslPart_snd_ne_nil part pr hm

theorem foldl_qsInsert_inv (l : List (List Char × List Char)) :
    ∀ acc : List (List Char × List (List Char)),
      (∀ pr ∈ l, pr.2 ≠ []) →
      (acc.map Prod.fst).Nodup → (∀ kv ∈ acc, kv.2 ≠ []) →
      (∀ kv ∈ acc, ∀ w ∈ kv.2, w ≠ []) →
      ((List.foldl (fun d kv => qsInsert kv.1 kv.2 d) acc l).map Prod.fst).Nodup ∧
        (∀ kv ∈ List.foldl (fun d kv => qsInsert kv.1 kv.2 d) acc l, kv.2 ≠ []) ∧
        (∀ kv ∈ List.foldl (fun d kv => qsInsert kv.1 kv.2 d) acc l,
          ∀ w ∈ kv.2, w ≠ []) := by
  induction l with
  | nil =>
    intro acc _ h1 h2 h3
    exact ⟨h1, h2, h3⟩
  | cons pr rest ih =>
    intro acc hl h1 h2 h3
    rw [List.foldl_cons]
    exact ih (qsInsert pr.1 pr.2 acc)
      (fun a ha => hl a (List.mem_cons_of_mem _ ha))
      (qsInsert_fst_nodup pr.1 pr.2 acc h1)
      (qsInsert_groups_ne_nil pr.1 pr.2 acc h2)
      (qsInsert_vals_ne_nil pr.1 pr.2 (hl pr (List.mem_cons_self _ _)) acc h3)

theorem parseQs_inv (q : List Char) :
    ((parseQs q).map Prod.fst).Nodup ∧ (∀ kv ∈ parseQs q, kv.2 ≠ []) ∧
      (∀ kv ∈ parseQs q, ∀ w ∈ kv.2, w ≠ []) := by
  unfold parseQs
  exact foldl_qsInsert_inv (parseQsl q) [] (parseQsl_snd_ne_nil q)
    (by simp) (by simp) (by simp)

theorem filterTracking_idem (d : List (List Char × List (List Char))) :
    filterTracking (filterTracking d) = filterTracking d := by
  unfold filterTracking
  refine List.filter_eq_self.mpr ?_
  intro kv hkv
  exact (List.mem_filter.mp hkv).2

theorem filterTracking_sublist (d : List (List Char × List (List Char))) :
    List.Sublist (filterTracking d) d := List.filter_sublist d

/-- The key round trip: re-parsing the re-encoded, tracking-stripped query
dictionary returns it unchanged. -/
theorem parseQs_urlencode_round (q : List Char) :
    parseQs (urlencodeQs (filterTracking (parseQs q))) = filterTracking (parseQs q) := by
  obtain ⟨hnd, hg, hv⟩ := parseQs_inv q
  have hnd' : ((filterTracking (parseQs q)).map Prod.fst).Nodup :=
    hnd.sublist ((filterTracking_sublist (parseQs q)).map Prod.fst)
  have hg' : ∀ kv ∈ filterTracking (parseQs q), kv.2 ≠ [] :=
    fun kv hkv => hg kv ((filterTracking_sublist (parseQs q)).subset hkv)
  have hv' : ∀ kv ∈ filterTracking (parseQs q), ∀ w ∈ kv.2, w ≠ [] :=
    fun kv hkv => hv kv ((filterTracking_sublist (parseQs q)).subset hkv)
  conv_lhs => rw [parseQs]
  rw [parseQsl_urlencodeQs _ hg' hv',
    foldl_qsInsert_flatten _ [] hnd' (by simp) hg']
  simp

/-- Full second-pass stability of the query component. -/
theorem urlencode_round (q : List Char) :
    urlencodeQs (filterTracking (parseQs (urlencodeQs (filterTracking (parseQs q))))) =
      urlencodeQs (filterTracking (parseQs q)) := by
  rw [parseQs_urlencode_round, filterTracking_idem]

/-! ## Towards C10: reparsing the reassembled URL -/


/-! Basic character facts. -/

theorem char_le_iff_nat (a b : Char) : a ≤ b ↔ a.toNat ≤ b.toNat := by
  rw [Char.le_def, UInt32.le_def, BitVec.le_def]
  exact Iff.rfl

theorem isAsciiAlpha_toNat (c : Char) (h : isAsciiAlpha c = true) :
    (97 ≤ c.toNat ∧ c.toNat ≤ 122) ∨ (65 ≤ c.toNat ∧ c.toNat ≤ 90) := by
  unfold isAsciiAlpha at h
  rw [decide_eq_true_eq] at h
  rcases h with ⟨h1, h2⟩ | ⟨h1, h2⟩
  · exact Or.inl ⟨(char_le_iff_nat _ _).mp h1, (char_le_iff_nat _ _).mp h2⟩
  · exact Or.inr ⟨(char_le_iff_nat _ _).mp h1, (char_le_iff_nat _ _).mp h2⟩

theorem isAsciiAlpha_of_toNat (c : Char)
    (h : (97 ≤ c.toNat ∧ c.toNat ≤ 122) ∨ (65 ≤ c.toNat ∧ c.toNat ≤ 90)) :
    isAsciiAlpha c = true := by
  unfold isAsciiAlpha
  rw [decide_eq_true_eq]
  rcases h with ⟨h1, h2⟩ | ⟨h1, h2⟩
  · exact Or.inl ⟨(char_le_iff_nat _ _).mpr h1, (char_le_iff_nat _ _).mpr h2⟩
  · exact Or.inr ⟨(char_le_iff_nat _ _).mpr h1, (char_le_iff_nat _ _).mpr h2⟩

theorem isAsciiAlpha_gt_space (c : Char) (h : isAsciiAlpha c = true) :
    0x20 < c.toNat := by
  rcases isAsciiAlpha_toNat c h with ⟨h1, _⟩ | ⟨h1, _⟩ <;> omega

theorem toLower_isAsciiAlpha (c : Char) (h : isAsciiAlpha c = true) :
    isAsciiAlpha (Char.toLower c) = true := by
  rcases isAsciiAlpha_toNat c h with ⟨h1, h2⟩ | ⟨h1, h2⟩
  · rw [toLower_eq, if_neg (by omega)]
    exact h
  · rw [toLower_eq, if_pos (by omega)]
    exact isAsciiAlpha_of_toNat _ (by
      rw [char_ofNat_add32_toNat c ⟨by omega, by omega⟩]
      omega)

theorem isAsciiAlphaNum_toNat (c : Char) (h : isAsciiAlphaNum c = true) :
    (97 ≤ c.toNat ∧ c.toNat ≤ 122) ∨ (65 ≤ c.toNat ∧ c.toNat ≤ 90) ∨
      (48 ≤ c.toNat ∧ c.toNat ≤ 57) := by
  unfold isAsciiAlphaNum at h
  rw [decide_eq_true_eq] at h
  rcases h with ⟨h1, h2⟩ | ⟨h1, h2⟩ | ⟨h1, h2⟩
  · exact Or.inl ⟨(char_le_iff_nat _ _).mp h1, (char_le_iff_nat _ _).mp h2⟩
  · exact Or.inr (Or.inl ⟨(char_le_iff_nat _ _).mp h1, (char_le_iff_nat _ _).mp h2⟩)
  · exact Or.inr (Or.inr ⟨(char_le_iff_nat _ _).mp h1, (char_le_iff_nat _ _).mp h2⟩)

theorem isAsciiAlphaNum_of_toNat (c : Char)
    (h : (97 ≤ c.toNat ∧ c.toNat ≤ 122) ∨ (65 ≤ c.toNat ∧ c.toNat ≤ 90) ∨
      (48 ≤ c.toNat ∧ c.toNat ≤ 57)) : isAsciiAlphaNum c = true := by
  unfold isAsciiAlphaNum
  rw [decide_eq_true_eq]
  rcases h with ⟨h1, h2⟩ | ⟨h1, h2⟩ | ⟨h1, h2⟩
  · exact Or.inl ⟨(char_le_iff_nat _ _).mpr h1, (char_le_iff_nat _ _).mpr h2⟩
  · exact Or.inr (Or.inl ⟨(char_le_iff_nat _ _).mpr h1, (char_le_iff_nat _ _).mpr h2⟩)
  · exact Or.inr (Or.inr ⟨(char_le_iff_nat _ _).mpr h1, (char_le_iff_nat _ _).mpr h2⟩)

theorem toLower_isSchemeChar (c : Char) (h : isSchemeChar c = true) :
    isSchemeChar (Char.toLower c) = true := by
  unfold isSchemeChar at h ⊢
  rcases Bool.or_eq_true_iff.mp h with han | hsym
  · rcases isAsciiAlphaNum_toNat c han with ⟨h1, h2⟩ | ⟨h1, h2⟩ | ⟨h1, h2⟩
    · rw [toLower_eq, if_neg (by omega)]
      exact h
    · rw [toLower_eq, if_pos (by omega)]
      refine Bool.or_eq_true_iff.mpr (Or.inl (isAsciiAlphaNum_of_toNat _ ?_))
      rw [char_ofNat_add32_toNat c ⟨by omega, by omega⟩]
      omega
    · rw [toLower_eq, if_neg (by omega)]
      exact h
  · rw [decide_eq_true_eq] at hsym
    have hfix : Char.toLower c = c := by
      rcases hsym with rfl | rfl | rfl <;> decide
    rw [hfix]
    exact h

theorem isSchemeChar_gt_space (c : Char) (h : isSchemeChar c = true) :
    0x20 < c.toNat := by
  unfold isSchemeChar at h
  rcases Bool.or_eq_true_iff.mp h with han | hsym
  · rcases isAsciiAlphaNum_toNat c han with ⟨h1, _⟩ | ⟨h1, _⟩ | ⟨h1, _⟩ <;> omega
  · rw [decide_eq_true_eq] at hsym
    rcases hsym with rfl | rfl | rfl <;> decide

theorem isSchemeChar_ne (c : Char) (h : isSchemeChar c = true) (x : Char)
    (hx : isSchemeChar x = false) : c ≠ x := by
  intro hcx
  rw [hcx] at h
  rw [h] at hx
  exact Bool.true_eq_false.mp hx

/-! Anatomy of `pyUrlsplit`. -/

theorem pyUrlsplit_parts (u0 s r1 n r2 r3 f p q : List Char)
    (hs : (schemeSplit (removeUnsafe (lstripControl u0))).getD
      ([], removeUnsafe (lstripControl u0)) = (s, r1))
    (hn : (if r1.take 2 = ['/', '/'] then
        ((r1.drop 2).takeWhile (fun c => ¬ isNetlocDelim c),
         (r1.drop 2).dropWhile (fun c => ¬ isNetlocDelim c))
      else ([], r1)) = (n, r2))
    (hf : (splitOnceAt '#' r2).getD (r2, []) = (r3, f))
    (hq : (splitOnceAt '?' r3).getD (r3, []) = (p, q)) :
    pyUrlsplit u0 = ⟨s, n, p, [], q, f⟩ := by
  unfold pyUrlsplit
  simp only [hs, hn, hf, hq]

theorem pyUrlparse_no_params (u0 : List Char)
    (h : ';' ∉ (pyUrlsplit u0).path) : pyUrlparse u0 = pyUrlsplit u0 := by
  unfold pyUrlparse
  rw [if_neg (fun hc => h hc.2)]

theorem pyUrlunparse_no_params (s n p q f : List Char) :
    pyUrlunparse ⟨s, n, p, [], q, f⟩ = pyUrlunsplit s n p q f := by
  unfold pyUrlunparse
  rw [if_neg (by simp)]

/-! Split and cleaning helpers. -/

theorem splitFst_prefix (c : Char) (l : List Char) :
    ((splitOnceAt c l).getD (l, [])).1 <+: l := by
  cases hs : splitOnceAt c l with
  | none => exact List.prefix_refl l
  | some ab =>
    rcases ab with ⟨a, b⟩
    rcases splitOnceAt_eq_some c l a b hs with ⟨heq, -⟩
    exact ⟨c :: b, heq.symm⟩

theorem splitFst_not_mem (c : Char) (l : List Char) :
    c ∉ ((splitOnceAt c l).getD (l, [])).1 := by
  cases hs : splitOnceAt c l with
  | none => exact (splitOnceAt_eq_none c l).mp hs
  | some ab =>
    rcases ab with ⟨a, b⟩
    exact (splitOnceAt_eq_some c l a b hs).2

theorem schemeSplit_nil : schemeSplit [] = none := rfl

theorem schemeSplit_none_of_head (c : Char) (r : List Char)
    (hc : isAsciiAlpha c = false) : schemeSplit (c :: r) = none := by
  unfold schemeSplit
  cases hs : splitOnceAt ':' (c :: r) with
  | none => rfl
  | some ab =>
    rcases ab with ⟨a, b⟩
    rcases splitOnceAt_eq_some ':' _ a b hs with ⟨heq, -⟩
    cases a with
    | nil => rfl
    | cons a0 as =>
      rw [List.cons_append] at heq
      injection heq with hh1 hh2
      show (if isAsciiAlpha a0 = true ∧ (a0 :: as).all isSchemeChar = true
        then some (pyLower (a0 :: as), b) else none) = none
      rw [if_neg]
      intro hcond
      rw [← hh1, hc] at hcond
      exact Bool.false_ne_true hcond.1

theorem schemeSplit_reparse (s t : List Char) (hne : s ≠ [])
    (hhead : ∀ c ∈ s.take 1, isAsciiAlpha c = true)
    (hall : ∀ c ∈ s, isSchemeChar c = true)
    (hlow : pyLower s = s) :
    schemeSplit (s ++ ':' :: t) = some (s, t) := by
  have hcol : ':' ∉ s := fun hm => absurd (hall ':' hm) (by decide)
  have hsplit := splitOnceAt_append ':' s t hcol
  unfold schemeSplit
  cases s with
  | nil => exact absurd rfl hne
  | cons c0 cs =>
    simp only [hsplit]
    rw [if_pos ⟨hhead c0 (by simp), List.all_eq_true.mpr hall⟩, hlow]

theorem schemeSplit_none_extend (P w t : List Char) (hpre : P <+: w)
    (hw : schemeSplit w = none) (hcolP : ':' ∈ P) :
    schemeSplit (P ++ t) = none := by
  obtain ⟨a, b, hPsplit⟩ : ∃ a b, splitOnceAt ':' P = some (a, b) := by
    cases hs : splitOnceAt ':' P with
    | none => exact absurd hcolP ((splitOnceAt_eq_none ':' P).mp hs)
    | some ab =>
      rcases ab with ⟨a, b⟩
      exact ⟨a, b, rfl⟩
  rcases splitOnceAt_eq_some ':' P a b hPsplit with ⟨hPeq, hna⟩
  obtain ⟨t2, rfl⟩ := hpre
  have h1 : splitOnceAt ':' (P ++ t) = some (a, b ++ t) := by
    rw [hPeq, List.append_assoc]
    exact splitOnceAt_append ':' a _ hna
  have h2 : splitOnceAt ':' (P ++ t2) = some (a, b ++ t2) := by
    rw [hPeq, List.append_assoc]
    exact splitOnceAt_append ':' a _ hna
  unfold schemeSplit at hw ⊢
  simp only [h2] at hw
  simp only [h1]
  cases a with
  | nil => rfl
  | cons a0 as =>
    have hw2 : (if isAsciiAlpha a0 = true ∧ (a0 :: as).all isSchemeChar = true
        then some (pyLower (a0 :: as), b ++ t2) else none) = none := hw
    show (if isAsciiAlpha a0 = true ∧ (a0 :: as).all isSchemeChar = true
        then some (pyLower (a0 :: as), b ++ t) else none) = none
    by_cases hcond : isAsciiAlpha a0 = true ∧ (a0 :: as).all isSchemeChar = true
    · rw [if_pos hcond] at hw2
      exact absurd hw2 (by simp)
    · rw [if_neg hcond]

theorem takeWhile_append_all (p : Char → Bool) (xs ys : List Char)
    (h : ∀ x ∈ xs, p x = true) : (xs ++ ys).takeWhile p = xs ++ ys.takeWhile p := by
  induction xs with
  | nil => simp
  | cons a as ih =>
    rw [List.cons_append, List.takeWhile_cons, if_pos (h a (List.mem_cons_self _ _)),
      ih (fun x hx => h x (List.mem_cons_of_mem _ hx)), List.cons_append]

theorem dropWhile_append_all (p : Char → Bool) (xs ys : List Char)
    (h : ∀ x ∈ xs, p x = true) : (xs ++ ys).dropWhile p = ys.dropWhile p := by
  induction xs with
  | nil => simp
  | cons a as ih =>
    rw [List.cons_append, List.dropWhile_cons, if_pos (h a (List.mem_cons_self _ _)),
      ih (fun x hx => h x (List.mem_cons_of_mem _ hx))]

theorem lstripControl_eq_self (v : List Char)
    (h : ∀ c ∈ v.take 1, 0x20 < c.toNat) : lstripControl v = v := by
  cases v with
  | nil => rfl
  | cons c r =>
    have hc := h c (by simp)
    unfold lstripControl
    rw [List.dropWhile_cons, if_neg (by simp only [decide_eq_true_eq]; omega)]

theorem removeUnsafe_eq_self (v : List Char)
    (h : ∀ c ∈ v, ¬ (c = '\t' ∨ c = '\r' ∨ c = '\n')) : removeUnsafe v = v := by
  unfold removeUnsafe
  refine List.filter_eq_self.mpr ?_
  intro c hc
  simp only [decide_eq_true_eq]
  exact h c hc

theorem mem_clean (u : List Char) (c : Char)
    (h : c ∈ removeUnsafe (lstripControl u)) : c ∈ u :=
  (List.dropWhile_sublist _).subset (List.mem_of_mem_filter h)

theorem clean_no_unsafe (u : List Char) :
    ∀ c ∈ removeUnsafe (lstripControl u), ¬ (c = '\t' ∨ c = '\r' ∨ c = '\n') := by
  intro c hc
  have h2 := (List.mem_filter.mp hc).2
  simpa using h2

theorem clean_head_gt (u : List Char) (c : Char) (r : List Char)
    (h : removeUnsafe (lstripControl u) = c :: r) : 0x20 < c.toNat := by
  rcases hl : lstripControl u with _ | ⟨c0, r0⟩
  · rw [hl] at h
    exact absurd h (by simp [removeUnsafe])
  · have hc0 : ¬ (c0.toNat ≤ 0x20) := by
      have hidem : (c0 :: r0).dropWhile (fun c => decide (c.toNat ≤ 0x20)) = c0 :: r0 := by
        rw [← hl]
        unfold lstripControl
        exact dropWhile_dropWhile _ u
      have := dropWhile_head_not _ c0 r0 hidem
      simpa using this
    rw [hl] at h
    unfold removeUnsafe at h
    rw [List.filter_cons, if_pos (by
      simp only [decide_eq_true_eq]
      intro hor
      rcases hor with rfl | rfl | rfl <;> exact hc0 (by decide))] at h
    injection h with h1 _
    rw [← h1]
    omega

theorem qsSafe_not_unsafe (c : Char) (h : qsSafe c = true) :
    ¬ (c = '\t' ∨ c = '\r' ∨ c = '\n') := by
  intro hor
  rcases hor with rfl | rfl | rfl <;> exact absurd h (by decide)

theorem qsSafe_not_mem (x : Char) (hx : qsSafe x = false) (Q : List Char)
    (hQ : ∀ c ∈ Q, qsSafe c = true) : x ∉ Q := by
  intro hm
  rw [hQ x hm] at hx
  exact Bool.true_eq_false.mp hx

theorem schemeChar_not_unsafe (c : Char) (h : isSchemeChar c = true) :
    ¬ (c = '\t' ∨ c = '\r' ∨ c = '\n') := by
  intro hor
  rcases hor with rfl | rfl | rfl <;> exact absurd h (by decide)

theorem take2_ne_slashslash (P t : List Char) (hP2 : ¬ (['/', '/'] <+: P))
    (ht : t = [] ∨ ∃ t0 ts, t = t0 :: ts ∧ t0 ≠ '/') :
    (P ++ t).take 2 ≠ ['/', '/'] := by
  intro h
  have hpre : ['/', '/'] <+: P ++ t := h ▸ List.take_prefix 2 (P ++ t)
  obtain ⟨rest, heq⟩ := hpre
  replace heq := heq.symm
  cases P with
  | nil =>
    rcases ht with rfl | ⟨t0, ts, rfl, ht0⟩
    · exact absurd heq (by simp)
    · rw [List.nil_append] at heq
      injection heq with h1 _
      exact ht0 h1
  | cons x xs =>
    rw [List.cons_append] at heq
    injection heq with h1 h2
    subst h1
    cases xs with
    | nil =>
      rcases ht with rfl | ⟨t0, ts, rfl, ht0⟩
      · exact absurd h2 (by simp)
      · rw [List.nil_append] at h2
        injection h2 with h3 _
        exact ht0 h3
    | cons y ys =>
      rw [List.cons_append] at h2
      injection h2 with h3 _
      subst h3
      exact hP2 ⟨ys, rfl⟩

theorem pyUrlunsplit_eval_pos (S N P Q : List Char)
    (hC : N ≠ [] ∨ (S ≠ [] ∧ usesNetloc.contains S ∧ P.take 2 ≠ ['/', '/'])) :
    pyUrlunsplit S N P Q [] =
      (if Q ≠ [] then
        (if S ≠ [] then
          S ++ ':' :: ('/' :: '/' ::
            (N ++ (if P ≠ [] ∧ P.take 1 ≠ ['/'] then '/' :: P else P)))
         else '/' :: '/' ::
            (N ++ (if P ≠ [] ∧ P.take 1 ≠ ['/'] then '/' :: P else P))) ++ '?' :: Q
       else
        (if S ≠ [] then
          S ++ ':' :: ('/' :: '/' ::
            (N ++ (if P ≠ [] ∧ P.take 1 ≠ ['/'] then '/' :: P else P)))
         else '/' :: '/' ::
            (N ++ (if P ≠ [] ∧ P.take 1 ≠ ['/'] then '/' :: P else P)))) := by
  unfold pyUrlunsplit
  rw [if_pos hC, if_neg (by simp : ¬ (([] : List Char) ≠ []))]

theorem pyUrlunsplit_eval_neg (S N P Q : List Char)
    (hC : ¬ (N ≠ [] ∨ (S ≠ [] ∧ usesNetloc.contains S ∧ P.take 2 ≠ ['/', '/']))) :
    pyUrlunsplit S N P Q [] =
      (if Q ≠ [] then (if S ≠ [] then S ++ ':' :: P else P) ++ '?' :: Q
       else (if S ≠ [] then S ++ ':' :: P else P)) := by
  unfold pyUrlunsplit
  rw [if_neg hC, if_neg (by simp : ¬ (([] : List Char) ≠ []))]

theorem schemeSplit_none_no_colon (u : List Char) (h : ':' ∉ u) :
    schemeSplit u = none := by
  unfold schemeSplit
  rw [(splitOnceAt_eq_none ':' u).mpr h]

theorem schemeSplit_some_good (u s r : List Char) (h : schemeSplit u = some (s, r)) :
    s ≠ [] ∧ (∀ c ∈ s.take 1, isAsciiAlpha c = true) ∧
      (∀ x ∈ s, isSchemeChar x = true) ∧ pyLower s = s ∧
      ∃ a, splitOnceAt ':' u = some (a, r) ∧ s = pyLower a := by
  unfold schemeSplit at h
  cases hs : splitOnceAt ':' u with
  | none =>
    rw [hs] at h
    exact absurd h (by simp)
  | some ab =>
    rcases ab with ⟨a, b⟩
    simp only [hs] at h
    cases a with
    | nil => exact absurd h (by simp)
    | cons a0 as =>
      have h2 : (if isAsciiAlpha a0 = true ∧ (a0 :: as).all isSchemeChar = true
          then some (pyLower (a0 :: as), b) else none) = some (s, r) := h
      by_cases hcond : isAsciiAlpha a0 = true ∧ (a0 :: as).all isSchemeChar = true
      · rw [if_pos hcond] at h2
        have h3 := Option.some.inj h2
        have hs1 : pyLower (a0 :: as) = s := congrArg Prod.fst h3
        have hr1 : b = r := congrArg Prod.snd h3
        subst hr1
        refine ⟨?_, ?_, ?_, ?_, ⟨a0 :: as, rfl, hs1.symm⟩⟩
        · rw [← hs1]
          unfold pyLower
          simp
        · intro c hc
          rw [← hs1] at hc
          unfold pyLower at hc
          rw [List.map_cons] at hc
          simp at hc
          subst hc
          exact toLower_isAsciiAlpha a0 hcond.1
        · intro x hx
          rw [← hs1] at hx
          rcases List.mem_map.mp hx with ⟨y, hy, rfl⟩
          exact toLower_isSchemeChar y (List.all_eq_true.mp hcond.2 y hy)
        · rw [← hs1]
          exact pyLower_idem _
      · rw [if_neg hcond] at h2
        exact absurd h2 (by simp)

theorem isNetlocDelim_toNat (c : Char) (h : isNetlocDelim c = true) :
    c.toNat = 47 ∨ c.toNat = 63 ∨ c.toNat = 35 := by
  unfold isNetlocDelim at h
  rw [decide_eq_true_eq] at h
  rcases h with rfl | rfl | rfl
  · exact Or.inl (by decide)
  · exact Or.inr (Or.inl (by decide))
  · exact Or.inr (Or.inr (by decide))

theorem pyLower_no_delim (n : List Char) (h : ∀ c ∈ n, isNetlocDelim c = false) :
    ∀ c ∈ pyLower n, isNetlocDelim c = false := by
  intro c hc
  rcases List.mem_map.mp hc with ⟨y, hy, rfl⟩
  rcases toLower_toNat_eq_or y with heq | hrange
  · rw [heq]
    exact h y hy
  · cases hd : isNetlocDelim (Char.toLower y) with
    | false => rfl
    | true =>
      rcases isNetlocDelim_toNat _ hd with h47 | h63 | h35 <;> omega

theorem pyLower_not_unsafe (n : List Char)
    (h : ∀ c ∈ n, ¬ (c = '\t' ∨ c = '\r' ∨ c = '\n')) :
    ∀ c ∈ pyLower n, ¬ (c = '\t' ∨ c = '\r' ∨ c = '\n') := by
  intro c hc hor
  have habs : c ∉ pyLower n := by
    rcases hor with rfl | rfl | rfl <;>
      exact not_mem_pyLower _ (by decide) n
        (fun hm => h _ hm (by simp)) 
  exact habs hc

/-! Reparsing an unsplit URL: the netloc-less core. -/

theorem pyUrlsplit_plain_core (P Q : List Char)
    (hsch : schemeSplit (if Q ≠ [] then P ++ '?' :: Q else P) = none)
    (hP2 : ¬ (['/', '/'] <+: P))
    (hPq : '?' ∉ P) (hPh : '#' ∉ P)
    (hPsafe : ∀ c ∈ P, ¬ (c = '\t' ∨ c = '\r' ∨ c = '\n'))
    (hPhead : ∀ c ∈ P.take 1, 0x20 < c.toNat)
    (hQ : ∀ c ∈ Q, qsSafe c = true) :
    pyUrlsplit (if Q ≠ [] then P ++ '?' :: Q else P) = ⟨[], [], P, [], Q, []⟩ := by
  by_cases hQe : Q = []
  · subst hQe
    rw [if_neg (by simp)] at hsch ⊢
    have hclean : removeUnsafe (lstripControl P) = P := by
      rw [lstripControl_eq_self P hPhead, removeUnsafe_eq_self P hPsafe]
    refine pyUrlsplit_parts P [] P [] P P [] P [] ?_ ?_ ?_ ?_
    · rw [hclean, hsch]
      rfl
    · rw [if_neg (by
        have := take2_ne_slashslash P [] hP2 (Or.inl rfl)
        rwa [List.append_nil] at this)]
    · rw [(splitOnceAt_eq_none '#' P).mpr hPh]
      rfl
    · rw [(splitOnceAt_eq_none '?' P).mpr hPq]
      rfl
  · rw [if_pos hQe] at hsch ⊢
    have hclean : removeUnsafe (lstripControl (P ++ '?' :: Q)) = P ++ '?' :: Q := by
      rw [lstripControl_eq_self, removeUnsafe_eq_self]
      · intro c hc
        rcases List.mem_append.mp hc with hc1 | hc2
        · exact hPsafe c hc1
        · rcases List.mem_cons.mp hc2 with rfl | hc3
          · decide
          · exact qsSafe_not_unsafe c (hQ c hc3)
      · cases P with
        | nil =>
          intro c hc
          rw [List.nil_append] at hc
          simp at hc
          subst hc
          decide
        | cons p0 ps =>
          intro c hc
          rw [List.cons_append] at hc
          simp at hc
          subst hc
          exact hPhead _ (by simp)
    refine pyUrlsplit_parts (P ++ '?' :: Q) [] (P ++ '?' :: Q) [] (P ++ '?' :: Q)
      (P ++ '?' :: Q) [] P Q ?_ ?_ ?_ ?_
    · rw [hclean, hsch]
      rfl
    · rw [if_neg (take2_ne_slashslash P ('?' :: Q) hP2
        (Or.inr ⟨'?', Q, rfl, by decide⟩))]
    · rw [(splitOnceAt_eq_none '#' _).mpr (by
        intro hm
        rcases List.mem_append.mp hm with h1 | h2
        · exact hPh h1
        · rcases List.mem_cons.mp h2 with heq | h3
          · exact absurd heq (by decide)
          · exact qsSafe_not_mem '#' (by decide) Q hQ h3)]
      rfl
    · rw [splitOnceAt_append '?' P Q hPq]
      rfl

/-! Reparsing an unsplit URL: the scheme-and-path core. -/

theorem pyUrlsplit_scheme_core (S P Q : List Char)
    (hSne : S ≠ []) (hShead : ∀ c ∈ S.take 1, isAsciiAlpha c = true)
    (hallS : ∀ x ∈ S, isSchemeChar x = true) (hlowS : pyLower S = S)
    (hP2 : ¬ (['/', '/'] <+: P))
    (hPq : '?' ∉ P) (hPh : '#' ∉ P)
    (hPsafe : ∀ c ∈ P, ¬ (c = '\t' ∨ c = '\r' ∨ c = '\n'))
    (hQ : ∀ c ∈ Q, qsSafe c = true) :
    pyUrlsplit (if Q ≠ [] then (S ++ ':' :: P) ++ '?' :: Q else S ++ ':' :: P) =
      ⟨S, [], P, [], Q, []⟩ := by
  rcases S with _ | ⟨s0, ss⟩
  · exact absurd rfl hSne
  have hs0 : isAsciiAlpha s0 = true := hShead s0 (by simp)
  have hsafeS : ∀ c ∈ s0 :: ss, ¬ (c = '\t' ∨ c = '\r' ∨ c = '\n') :=
    fun c hc => schemeChar_not_unsafe c (hallS c hc)
  by_cases hQe : Q = []
  · subst hQe
    rw [if_neg (by simp)]
    have hclean : removeUnsafe (lstripControl ((s0 :: ss) ++ ':' :: P)) =
        (s0 :: ss) ++ ':' :: P := by
      rw [lstripControl_eq_self, removeUnsafe_eq_self]
      · intro c hc
        rcases List.mem_append.mp hc with hc1 | hc2
        · exact hsafeS c hc1
        · rcases List.mem_cons.mp hc2 with rfl | hc3
          · decide
          · exact hPsafe c hc3
      · intro c hc
        rw [List.cons_append] at hc
        simp at hc
        subst hc
        exact isAsciiAlpha_gt_space _ hs0
    refine pyUrlsplit_parts ((s0 :: ss) ++ ':' :: P) (s0 :: ss) P [] P P [] P [] ?_ ?_ ?_ ?_
    · rw [hclean, schemeSplit_reparse (s0 :: ss) P hSne hShead hallS hlowS]
      rfl
    · rw [if_neg (by
        have := take2_ne_slashslash P [] hP2 (Or.inl rfl)
        rwa [List.append_nil] at this)]
    · rw [(splitOnceAt_eq_none '#' P).mpr hPh]
      rfl
    · rw [(splitOnceAt_eq_none '?' P).mpr hPq]
      rfl
  · rw [if_pos hQe]
    have hassoc : ((s0 :: ss) ++ ':' :: P) ++ '?' :: Q =
        (s0 :: ss) ++ ':' :: (P ++ '?' :: Q) := by
      rw [List.append_assoc]
      rfl
    rw [hassoc]
    have hclean : removeUnsafe (lstripControl ((s0 :: ss) ++ ':' :: (P ++ '?' :: Q))) =
        (s0 :: ss) ++ ':' :: (P ++ '?' :: Q) := by
      rw [lstripControl_eq_self, removeUnsafe_eq_self]
      · intro c hc
        rcases List.mem_append.mp hc with hc1 | hc2
        · exact hsafeS c hc1
        · rcases List.mem_cons.mp hc2 with rfl | hc3
          · decide
          · rcases List.mem_append.mp hc3 with hc4 | hc5
            · exact hPsafe c hc4
            · rcases List.mem_cons.mp hc5 with rfl | hc6
              · decide
              · exact qsSafe_not_unsafe c (hQ c hc6)
      · intro c hc
        rw [List.cons_append] at hc
        simp at hc
        subst hc
        exact isAsciiAlpha_gt_space _ hs0
    refine pyUrlsplit_parts ((s0 :: ss) ++ ':' :: (P ++ '?' :: Q)) (s0 :: ss)
      (P ++ '?' :: Q) [] (P ++ '?' :: Q) (P ++ '?' :: Q) [] P Q ?_ ?_ ?_ ?_
    · rw [hclean, schemeSplit_reparse (s0 :: ss) (P ++ '?' :: Q) hSne hShead hallS hlowS]
      rfl
    · rw [if_neg (take2_ne_slashslash P ('?' :: Q) hP2
        (Or.inr ⟨'?', Q, rfl, by decide⟩))]
    · rw [(splitOnceAt_eq_none '#' _).mpr (by
        intro hm
        rcases List.mem_append.mp hm with h1 | h2
        · exact hPh h1
        · rcases List.mem_cons.mp h2 with heq | h3
          · exact absurd heq (by decide)
          · exact qsSafe_not_mem '#' (by decide) Q hQ h3)]
      rfl
    · rw [splitOnceAt_append '?' P Q hPq]
      rfl

theorem takeWhile_nil_head (p : Char → Bool) (l : List Char)
    (h : l = [] ∨ ∃ c cs, l = c :: cs ∧ p c = false) :
    l.takeWhile p = [] ∧ l.dropWhile p = l := by
  rcases h with rfl | ⟨c, cs, rfl, hc⟩
  · exact ⟨rfl, rfl⟩
  · constructor
    · rw [List.takeWhile_cons, if_neg (by simp [hc])]
    · rw [List.dropWhile_cons, if_neg (by simp [hc])]

theorem take2_ne_of_not_prefix (l : List Char) (h : ¬ (['/', '/'] <+: l)) :
    l.take 2 ≠ ['/', '/'] := fun hh => h (hh ▸ List.take_prefix 2 l)

theorem slashAdjust_shape (P : List Char) :
    (if P ≠ [] ∧ P.take 1 ≠ ['/'] then '/' :: P else P) = [] ∨
      ∃ ps, (if P ≠ [] ∧ P.take 1 ≠ ['/'] then '/' :: P else P) = '/' :: ps := by
  by_cases hc : P ≠ [] ∧ P.take 1 ≠ ['/']
  · rw [if_pos hc]
    exact Or.inr ⟨P, rfl⟩
  · rw [if_neg hc]
    push_neg at hc
    cases P with
    | nil => exact Or.inl rfl
    | cons p0 ps =>
      have h0 := hc (by simp)
      simp at h0
      subst h0
      exact Or.inr ⟨ps, rfl⟩

theorem slashAdjust_no_slashslash (P : List Char) (hP2 : ¬ (['/', '/'] <+: P)) :
    ¬ (['/', '/'] <+: (if P ≠ [] ∧ P.take 1 ≠ ['/'] then '/' :: P else P)) := by
  by_cases hc : P ≠ [] ∧ P.take 1 ≠ ['/']
  · rw [if_pos hc]
    rintro ⟨rest, hr⟩
    have hr2 : '/' :: '/' :: rest = '/' :: P := hr
    injection hr2 with _ hr3
    apply hc.2
    rw [← hr3]
    rfl
  · rw [if_neg hc]
    exact hP2

theorem slashAdjust_idem (P : List Char) :
    (if ((if P ≠ [] ∧ P.take 1 ≠ ['/'] then '/' :: P else P)) ≠ [] ∧
      ((if P ≠ [] ∧ P.take 1 ≠ ['/'] then '/' :: P else P)).take 1 ≠ ['/'] then
      '/' :: (if P ≠ [] ∧ P.take 1 ≠ ['/'] then '/' :: P else P)
     else (if P ≠ [] ∧ P.take 1 ≠ ['/'] then '/' :: P else P)) =
    (if P ≠ [] ∧ P.take 1 ≠ ['/'] then '/' :: P else P) := by
  rcases slashAdjust_shape P with he | ⟨ps, he⟩
  · rw [he, if_neg (by simp)]
  · rw [he, if_neg (by simp)]

theorem slashAdjust_rstrip (P : List Char) (hrs : rstripSlash P = P) :
    rstripSlash (if P ≠ [] ∧ P.take 1 ≠ ['/'] then '/' :: P else P) =
      (if P ≠ [] ∧ P.take 1 ≠ ['/'] then '/' :: P else P) := by
  by_cases hc : P ≠ [] ∧ P.take 1 ≠ ['/']
  · rw [if_pos hc]
    exact rstripSlash_cons_slash P hrs hc.1
  · rw [if_neg hc]
    exact hrs

theorem slashAdjust_not_mem (P : List Char) (x : Char) (hx : x ≠ '/') (h : x ∉ P) :
    x ∉ (if P ≠ [] ∧ P.take 1 ≠ ['/'] then '/' :: P else P) := by
  by_cases hc : P ≠ [] ∧ P.take 1 ≠ ['/']
  · rw [if_pos hc]
    intro hm
    rcases List.mem_cons.mp hm with heq | hm2
    · exact hx heq
    · exact h hm2
  · rw [if_neg hc]
    exact h

theorem slashAdjust_safe (P : List Char)
    (h : ∀ c ∈ P, ¬ (c = '\t' ∨ c = '\r' ∨ c = '\n')) :
    ∀ c ∈ (if P ≠ [] ∧ P.take 1 ≠ ['/'] then '/' :: P else P),
      ¬ (c = '\t' ∨ c = '\r' ∨ c = '\n') := by
  by_cases hc : P ≠ [] ∧ P.take 1 ≠ ['/']
  · rw [if_pos hc]
    intro c hm
    rcases List.mem_cons.mp hm with rfl | hm2
    · decide
    · exact h c hm2
  · rw [if_neg hc]
    exact h

/-! Reparsing an unsplit URL: the netloc core. -/

theorem pyUrlsplit_netloc_core (S N P2 Q : List Char)
    (hSgood : S = [] ∨ (S ≠ [] ∧ (∀ c ∈ S.take 1, isAsciiAlpha c = true) ∧
      (∀ x ∈ S, isSchemeChar x = true) ∧ pyLower S = S))
    (hN : ∀ c ∈ N, isNetlocDelim c = false)
    (hNsafe : ∀ c ∈ N, ¬ (c = '\t' ∨ c = '\r' ∨ c = '\n'))
    (hP2head : P2 = [] ∨ ∃ ps, P2 = '/' :: ps)
    (hPq : '?' ∉ P2) (hPh : '#' ∉ P2)
    (hPsafe : ∀ c ∈ P2, ¬ (c = '\t' ∨ c = '\r' ∨ c = '\n'))
    (hQ : ∀ c ∈ Q, qsSafe c = true) :
    pyUrlsplit (if Q ≠ [] then
        (if S ≠ [] then S ++ ':' :: ('/' :: '/' :: (N ++ P2))
         else '/' :: '/' :: (N ++ P2)) ++ '?' :: Q
      else (if S ≠ [] then S ++ ':' :: ('/' :: '/' :: (N ++ P2))
         else '/' :: '/' :: (N ++ P2))) = ⟨S, N, P2, [], Q, []⟩ := by
  have hNall : ∀ x ∈ N, (decide ¬ (isNetlocDelim x = true)) = true := by
    intro x hx
    simp [hN x hx]
  have hrest : ∀ tl : List Char,
      (tl = [] ∨ ∃ t0 ts, tl = t0 :: ts ∧ isNetlocDelim t0 = true) →
      (P2 ++ tl).takeWhile (fun c => ¬ isNetlocDelim c) = [] ∧
        (P2 ++ tl).dropWhile (fun c => ¬ isNetlocDelim c) = P2 ++ tl := by
    intro tl htl
    refine takeWhile_nil_head _ _ ?_
    rcases hP2head with rfl | ⟨ps, rfl⟩
    · rcases htl with rfl | ⟨t0, ts, rfl, ht0⟩
      · exact Or.inl rfl
      · exact Or.inr ⟨t0, ts, rfl, by simp [ht0]⟩
    · exact Or.inr ⟨'/', ps ++ tl, rfl, by decide⟩
  have hsafe_all : ∀ tl : List Char, (∀ c ∈ tl, ¬ (c = '\t' ∨ c = '\r' ∨ c = '\n')) →
      ∀ c ∈ '/' :: '/' :: (N ++ P2) ++ tl, ¬ (c = '\t' ∨ c = '\r' ∨ c = '\n') := by
    intro tl htl c hc
    rcases List.mem_append.mp hc with hc1 | hc2
    · rcases List.mem_cons.mp hc1 with rfl | hc3
      · decide
      · rcases List.mem_cons.mp hc3 with rfl | hc4
        · decide
        · rcases List.mem_append.mp hc4 with hc5 | hc6
          · exact hNsafe c hc5
          · exact hPsafe c hc6
    · exact htl c hc2
  have hfrag : ∀ tl : List Char, ('#' ∉ tl) → '#' ∉ P2 ++ tl := by
    intro tl htl hm
    rcases List.mem_append.mp hm with hm1 | hm2
    · exact hPh hm1
    · exact htl hm2
  rcases hSgood with rfl | ⟨hSne, hShead, hallS, hlowS⟩
  · -- no scheme: the URL starts with `//`
    rw [if_neg (by simp : ¬ (([] : List Char) ≠ []))]
    by_cases hQe : Q = []
    · subst hQe
      rw [if_neg (by simp)]
      have hclean : removeUnsafe (lstripControl ('/' :: '/' :: (N ++ P2))) =
          '/' :: '/' :: (N ++ P2) := by
        rw [lstripControl_eq_self _ (by intro c hc; simp at hc; subst hc; decide),
          removeUnsafe_eq_self _ (by
            have := hsafe_all [] (by simp)
            rw [List.append_nil] at this
            exact this)]
      obtain ⟨htake, hdrop⟩ := hrest [] (Or.inl rfl)
      rw [List.append_nil] at htake hdrop
      refine pyUrlsplit_parts ('/' :: '/' :: (N ++ P2)) [] ('/' :: '/' :: (N ++ P2))
        N P2 P2 [] P2 [] ?_ ?_ ?_ ?_
      · rw [hclean, schemeSplit_none_of_head '/' _ (by decide)]
        rfl
      · rw [if_pos (show List.take 2 ('/' :: '/' :: (N ++ P2)) = ['/', '/'] from rfl)]
        show ((N ++ P2).takeWhile _, (N ++ P2).dropWhile _) = (N, P2)
        rw [takeWhile_append_all _ N P2 hNall, dropWhile_append_all _ N P2 hNall,
          htake, hdrop, List.append_nil]
      · rw [(splitOnceAt_eq_none '#' P2).mpr hPh]
        rfl
      · rw [(splitOnceAt_eq_none '?' P2).mpr hPq]
        rfl
    · rw [if_pos hQe]
      have hshape : ('/' :: '/' :: (N ++ P2)) ++ '?' :: Q =
          '/' :: '/' :: (N ++ (P2 ++ '?' :: Q)) := by
        simp
      rw [hshape]
      have hclean : removeUnsafe (lstripControl ('/' :: '/' :: (N ++ (P2 ++ '?' :: Q)))) =
          '/' :: '/' :: (N ++ (P2 ++ '?' :: Q)) := by
        rw [lstripControl_eq_self _ (by intro c hc; simp at hc; subst hc; decide),
          removeUnsafe_eq_self _ (by
            have := hsafe_all ('?' :: Q) (by
              intro c hc
              rcases List.mem_cons.mp hc with rfl | hc2
              · decide
              · exact qsSafe_not_unsafe c (hQ c hc2))
            rw [hshape] at this
            exact this)]
      obtain ⟨htake, hdrop⟩ := hrest ('?' :: Q) (Or.inr ⟨'?', Q, rfl, by decide⟩)
      refine pyUrlsplit_parts ('/' :: '/' :: (N ++ (P2 ++ '?' :: Q))) []
        ('/' :: '/' :: (N ++ (P2 ++ '?' :: Q))) N (P2 ++ '?' :: Q) (P2 ++ '?' :: Q) []
        P2 Q ?_ ?_ ?_ ?_
      · rw [hclean, schemeSplit_none_of_head '/' _ (by decide)]
        rfl
      · rw [if_pos (show List.take 2 ('/' :: '/' :: (N ++ (P2 ++ '?' :: Q))) = ['/', '/']
          from rfl)]
        show ((N ++ (P2 ++ '?' :: Q)).takeWhile _, (N ++ (P2 ++ '?' :: Q)).dropWhile _) =
          (N, P2 ++ '?' :: Q)
        rw [takeWhile_append_all _ N _ hNall, dropWhile_append_all _ N _ hNall,
          htake, hdrop, List.append_nil]
      · rw [(splitOnceAt_eq_none '#' _).mpr (hfrag ('?' :: Q) (by
          intro hm
          rcases List.mem_cons.mp hm with heq | hm2
          · exact absurd heq (by decide)
          · exact qsSafe_not_mem '#' (by decide) Q hQ hm2))]
        rfl
      · rw [splitOnceAt_append '?' P2 Q hPq]
        rfl
  · -- scheme present
    rcases S with _ | ⟨s0, ss⟩
    · exact absurd rfl hSne
    have hs0 : isAsciiAlpha s0 = true := hShead s0 (by simp)
    have hsafeS : ∀ c ∈ s0 :: ss, ¬ (c = '\t' ∨ c = '\r' ∨ c = '\n') :=
      fun c hc => schemeChar_not_unsafe c (hallS c hc)
    rw [if_pos hSne]
    by_cases hQe : Q = []
    · subst hQe
      rw [if_neg (by simp)]
      have hclean : removeUnsafe (lstripControl
          ((s0 :: ss) ++ ':' :: ('/' :: '/' :: (N ++ P2)))) =
          (s0 :: ss) ++ ':' :: ('/' :: '/' :: (N ++ P2)) := by
        rw [lstripControl_eq_self _ (by
            intro c hc
            rw [List.cons_append] at hc
            simp at hc
            subst hc
            exact isAsciiAlpha_gt_space _ hs0),
          removeUnsafe_eq_self _ (by
            intro c hc
            rcases List.mem_append.mp hc with hc1 | hc2
            · exact hsafeS c hc1
            · rcases List.mem_cons.mp hc2 with rfl | hc3
              · decide
              · have := hsafe_all [] (by simp)
                rw [List.append_nil] at this
                exact this c hc3)]
      obtain ⟨htake, hdrop⟩ := hrest [] (Or.inl rfl)
      rw [List.append_nil] at htake hdrop
      refine pyUrlsplit_parts ((s0 :: ss) ++ ':' :: ('/' :: '/' :: (N ++ P2))) (s0 :: ss)
        ('/' :: '/' :: (N ++ P2)) N P2 P2 [] P2 [] ?_ ?_ ?_ ?_
      · rw [hclean, schemeSplit_reparse (s0 :: ss) _ hSne hShead hallS hlowS]
        rfl
      · rw [if_pos (show List.take 2 ('/' :: '/' :: (N ++ P2)) = ['/', '/'] from rfl)]
        show ((N ++ P2).takeWhile _, (N ++ P2).dropWhile _) = (N, P2)
        rw [takeWhile_append_all _ N P2 hNall, dropWhile_append_all _ N P2 hNall,
          htake, hdrop, List.append_nil]
      · rw [(splitOnceAt_eq_none '#' P2).mpr hPh]
        rfl
      · rw [(splitOnceAt_eq_none '?' P2).mpr hPq]
        rfl
    · rw [if_pos hQe]
      have hshape : ((s0 :: ss) ++ ':' :: ('/' :: '/' :: (N ++ P2))) ++ '?' :: Q =
          (s0 :: ss) ++ ':' :: ('/' :: '/' :: (N ++ (P2 ++ '?' :: Q))) := by
        simp
      rw [hshape]
      have hclean : removeUnsafe (lstripControl
          ((s0 :: ss) ++ ':' :: ('/' :: '/' :: (N ++ (P2 ++ '?' :: Q))))) =
          (s0 :: ss) ++ ':' :: ('/' :: '/' :: (N ++ (P2 ++ '?' :: Q))) := by
        rw [lstripControl_eq_self _ (by
            intro c hc
            rw [List.cons_append] at hc
            simp at hc
            subst hc
            exact isAsciiAlpha_gt_space _ hs0),
          removeUnsafe_eq_self _ (by
            intro c hc
            rcases List.mem_append.mp hc with hc1 | hc2
            · exact hsafeS c hc1
            · rcases List.mem_cons.mp hc2 with rfl | hc3
              · decide
              · have := hsafe_all ('?' :: Q) (by
                  intro c2 hc2m
                  rcases List.mem_cons.mp hc2m with rfl | hc2b
                  · decide
                  · exact qsSafe_not_unsafe c2 (hQ c2 hc2b))
                rw [show ('/' :: '/' :: (N ++ P2)) ++ '?' :: Q =
                    '/' :: '/' :: (N ++ (P2 ++ '?' :: Q)) by simp] at this
                exact this c hc3)]
      obtain ⟨htake, hdrop⟩ := hrest ('?' :: Q) (Or.inr ⟨'?', Q, rfl, by decide⟩)
      refine pyUrlsplit_parts ((s0 :: ss) ++ ':' :: ('/' :: '/' :: (N ++ (P2 ++ '?' :: Q))))
        (s0 :: ss) ('/' :: '/' :: (N ++ (P2 ++ '?' :: Q))) N (P2 ++ '?' :: Q)
        (P2 ++ '?' :: Q) [] P2 Q ?_ ?_ ?_ ?_
      · rw [hclean, schemeSplit_reparse (s0 :: ss) _ hSne hShead hallS hlowS]
        rfl
      · rw [if_pos (show List.take 2 ('/' :: '/' :: (N ++ (P2 ++ '?' :: Q))) = ['/', '/']
          from rfl)]
        show ((N ++ (P2 ++ '?' :: Q)).takeWhile _, (N ++ (P2 ++ '?' :: Q)).dropWhile _) =
          (N, P2 ++ '?' :: Q)
        rw [takeWhile_append_all _ N _ hNall, dropWhile_append_all _ N _ hNall,
          htake, hdrop, List.append_nil]
      · rw [(splitOnceAt_eq_none '#' _).mpr (hfrag ('?' :: Q) (by
          intro hm
          rcases List.mem_cons.mp hm with heq | hm2
          · exact absurd heq (by decide)
          · exact qsSafe_not_mem '#' (by decide) Q hQ hm2))]
        rfl
      · rw [splitOnceAt_append '?' P2 Q hPq]
        rfl

theorem rstrip_head_slash (P0 r2 : List Char) (hP0r2 : P0 <+: r2)
    (hP0q : '?' ∉ P0) (hP0h : '#' ∉ P0)
    (hr2h : r2 = [] ∨ ∃ c cs, r2 = c :: cs ∧ isNetlocDelim c = true) :
    rstripSlash P0 = [] ∨ ∃ ps, rstripSlash P0 = '/' :: ps := by
  rcases hPdec : rstripSlash P0 with _ | ⟨c0, cr⟩
  · exact Or.inl rfl
  · right
    refine ⟨cr, ?_⟩
    have hP0dec : ∃ pr, P0 = c0 :: pr := by
      obtain ⟨tl, htl⟩ := rstripSlash_isPre P0
      rw [hPdec] at htl
      exact ⟨cr ++ tl, by rw [← htl]; rfl⟩
    obtain ⟨pr, hP0dec⟩ := hP0dec
    obtain ⟨tl2, htl2⟩ := hP0r2
    rw [hP0dec] at htl2
    rcases hr2h with hr2nil | ⟨d, ds, hr2cons, hdel⟩
    · rw [hr2nil] at htl2
      exact absurd htl2 (by simp)
    · rw [hr2cons] at htl2
      injection htl2 with hcd hrest2
      subst hcd
      have hc0mem : c0 ∈ P0 := by
        rw [hP0dec]
        exact List.mem_cons_self _ _
      unfold isNetlocDelim at hdel
      rw [decide_eq_true_eq] at hdel
      rcases hdel with rfl | rfl | rfl
      · rfl
      · exact absurd hc0mem hP0q
      · exact absurd hc0mem hP0h

theorem rstrip_prefix_head (u P0 : List Char)
    (hpre : P0 <+: removeUnsafe (lstripControl u)) :
    rstripSlash P0 <+: removeUnsafe (lstripControl u) ∧
      ∀ c ∈ (rstripSlash P0).take 1, 0x20 < c.toNat := by
  have hpre2 : rstripSlash P0 <+: removeUnsafe (lstripControl u) :=
    (rstripSlash_isPre P0).trans hpre
  refine ⟨hpre2, ?_⟩
  intro c hcm
  rcases hPdec : rstripSlash P0 with _ | ⟨c0, cr⟩
  · rw [hPdec] at hcm
    simp at hcm
  · rw [hPdec] at hcm
    simp at hcm
    subst hcm
    obtain ⟨tl, htl⟩ := hpre2
    rw [hPdec] at htl
    exact clean_head_gt u c (cr ++ tl) (by rw [← htl]; rfl)

theorem caseA_path_facts (u P0 r2 : List Char)
    (hschnone : schemeSplit (removeUnsafe (lstripControl u)) = none)
    (hP0r2 : P0 <+: r2) (hP0q : '?' ∉ P0) (hP0h : '#' ∉ P0)
    (hinfo : (r2 = [] ∨ ∃ c cs, r2 = c :: cs ∧ isNetlocDelim c = true) ∨
      r2 = removeUnsafe (lstripControl u)) :
    (∀ t : List Char, ':' ∉ t → schemeSplit (rstripSlash P0 ++ t) = none) ∧
      ∀ c ∈ (rstripSlash P0).take 1, 0x20 < c.toNat := by
  have hheadinfo : rstripSlash P0 = [] ∨ (∃ ps, rstripSlash P0 = '/' :: ps) ∨
      (rstripSlash P0 <+: removeUnsafe (lstripControl u) ∧
        ∀ c ∈ (rstripSlash P0).take 1, 0x20 < c.toNat) := by
    rcases hinfo with hr2h | hr2uc
    · rcases rstrip_head_slash P0 r2 hP0r2 hP0q hP0h hr2h with h3 | h3
      · exact Or.inl h3
      · exact Or.inr (Or.inl h3)
    · exact Or.inr (Or.inr (rstrip_prefix_head u P0 (hr2uc ▸ hP0r2)))
  constructor
  · intro t ht
    by_cases hcol : ':' ∈ rstripSlash P0
    · rcases hheadinfo with hnil | ⟨ps, hcons⟩ | ⟨hpre, -⟩
      · rw [hnil] at hcol
        simp at hcol
      · rw [hcons, List.cons_append]
        exact schemeSplit_none_of_head '/' _ (by decide)
      · exact schemeSplit_none_extend _ _ t hpre hschnone hcol
    · refine schemeSplit_none_no_colon _ ?_
      intro hm
      rcases List.mem_append.mp hm with hm1 | hm2
      · exact hcol hm1
      · exact ht hm2
  · intro c hcm
    rcases hheadinfo with hnil | ⟨ps, hcons⟩ | ⟨-, hhd⟩
    · rw [hnil] at hcm
      simp at hcm
    · rw [hcons] at hcm
      simp at hcm
      subst hcm
      decide
    · exact hhd c hcm

theorem pyLower_nil : pyLower [] = [] := rfl

/-! The idempotence theorem. -/

set_option maxHeartbeats 3200000 in
/-- C10 (amended): `_normalize_url` is idempotent on every URL that contains
no `';'` and whose parsed path does not begin with `"//"`: normalizing the
normalized URL returns it unchanged.  The two exclusions are exactly the two
failure modes of the original claim: stripping a trailing slash can expose a
`';'` path-parameter delimiter to the second parse, and a scheme-less path
beginning with `"//"` migrates into the netloc on re-parsing. -/
theorem C10_normalize_idempotent (u : List Char) (h1 : ';' ∉ u)
    (h2 : ¬ (['/', '/'] <+: (pyUrlparse u).path)) :
    pyNormalize (pyNormalize u) = pyNormalize u := by
  obtain ⟨S0, r1, hsr⟩ : ∃ S0 r1, (schemeSplit (removeUnsafe (lstripControl u))).getD
      ([], removeUnsafe (lstripControl u)) = (S0, r1) := ⟨_, _, Prod.mk.eta.symm⟩
  obtain ⟨N0, r2, hnr⟩ : ∃ N0 r2, (if r1.take 2 = ['/', '/'] then
      ((r1.drop 2).takeWhile (fun c => ¬ isNetlocDelim c),
       (r1.drop 2).dropWhile (fun c => ¬ isNetlocDelim c))
    else ([], r1)) = (N0, r2) := ⟨_, _, Prod.mk.eta.symm⟩
  obtain ⟨r3, F0, hrf⟩ : ∃ r3 F0, (splitOnceAt '#' r2).getD (r2, []) = (r3, F0) :=
    ⟨_, _, Prod.mk.eta.symm⟩
  obtain ⟨P0, Q0, hpq⟩ : ∃ P0 Q0, (splitOnceAt '?' r3).getD (r3, []) = (P0, Q0) :=
    ⟨_, _, Prod.mk.eta.symm⟩
  have hsplit : pyUrlsplit u = ⟨S0, N0, P0, [], Q0, F0⟩ :=
    pyUrlsplit_parts u S0 r1 N0 r2 r3 F0 P0 Q0 hsr hnr hrf hpq
  have hscheme : (S0 = [] ∧ r1 = removeUnsafe (lstripControl u) ∧
      schemeSplit (removeUnsafe (lstripControl u)) = none) ∨
      (S0 ≠ [] ∧ (∀ c ∈ S0.take 1, isAsciiAlpha c = true) ∧
        (∀ x ∈ S0, isSchemeChar x = true) ∧ pyLower S0 = S0 ∧
        ∃ a, removeUnsafe (lstripControl u) = a ++ ':' :: r1) := by
    cases hsch : schemeSplit (removeUnsafe (lstripControl u)) with
    | none =>
      rw [hsch, Option.getD_none] at hsr
      injection hsr with hSa hra
      exact Or.inl ⟨hSa.symm, hra.symm, rfl⟩
    | some sr =>
      rcases sr with ⟨a, b⟩
      rw [hsch, Option.getD_some] at hsr
      injection hsr with hSa hra
      subst hSa
      subst hra
      obtain ⟨hne, hhd, hall, hlow, a2, hsp2, -⟩ := schemeSplit_some_good _ _ _ hsch
      exact Or.inr ⟨hne, hhd, hall, hlow, a2, (splitOnceAt_eq_some ':' _ a2 _ hsp2).1⟩
  have hr1mem : ∀ c ∈ r1, c ∈ removeUnsafe (lstripControl u) := by
    rcases hscheme with ⟨-, hr, -⟩ | ⟨-, -, -, -, a, ha⟩
    · rw [hr]
      exact fun c hc => hc
    · rw [ha]
      intro c hc
      exact List.mem_append.mpr (Or.inr (List.mem_cons_of_mem _ hc))
  have hnetinfo : ((∀ c ∈ N0, isNetlocDelim c = false) ∧ (∀ c ∈ N0, c ∈ r1) ∧
      (∀ c ∈ r2, c ∈ r1)) ∧
      ((r1.take 2 = ['/', '/'] ∧
          (r2 = [] ∨ ∃ c cs, r2 = c :: cs ∧ isNetlocDelim c = true))
        ∨ (¬ r1.take 2 = ['/', '/'] ∧ N0 = [] ∧ r2 = r1)) := by
    by_cases hnet : r1.take 2 = ['/', '/']
    · rw [if_pos hnet] at hnr
      injection hnr with hN hr2
      refine ⟨⟨?_, ?_, ?_⟩, Or.inl ⟨hnet, ?_⟩⟩
      · intro c hc
        rw [← hN] at hc
        have := List.mem_takeWhile_imp hc
        simpa using this
      · intro c hc
        rw [← hN] at hc
        exact List.drop_subset 2 r1 ((List.takeWhile_sublist _).subset hc)
      · intro c hc
        rw [← hr2] at hc
        exact List.drop_subset 2 r1 ((List.dropWhile_sublist _).subset hc)
      · rcases hr2d : r2 with _ | ⟨c, cs⟩
        · exact Or.inl rfl
        · right
          refine ⟨c, cs, rfl, ?_⟩
          have hidem := dropWhile_dropWhile
            (fun x => decide ¬ (isNetlocDelim x = true)) (r1.drop 2)
          rw [hr2, hr2d] at hidem
          have := dropWhile_head_not _ c cs hidem
          simpa using this
    · rw [if_neg hnet] at hnr
      injection hnr with hN hr2
      refine ⟨⟨?_, ?_, ?_⟩, Or.inr ⟨hnet, hN.symm, hr2.symm⟩⟩
      · rw [← hN]
        intro c hc
        simp at hc
      · rw [← hN]
        intro c hc
        simp at hc
      · rw [← hr2]
        exact fun c hc => hc
  have hr3pre : r3 <+: r2 := by
    have h3 := splitFst_prefix '#' r2
    rw [hrf] at h3
    exact h3
  have hP0pre : P0 <+: r3 := by
    have h3 := splitFst_prefix '?' r3
    rw [hpq] at h3
    exact h3
  have hP0r2 : P0 <+: r2 := hP0pre.trans hr3pre
  have hP0h : '#' ∉ P0 := by
    have h3 := splitFst_not_mem '#' r2
    rw [hrf] at h3
    exact fun hm => h3 (hP0pre.subset hm)
  have hP0q : '?' ∉ P0 := by
    have h3 := splitFst_not_mem '?' r3
    rw [hpq] at h3
    exact h3
  have hP0mem : ∀ c ∈ P0, c ∈ removeUnsafe (lstripControl u) :=
    fun c hc => hr1mem c (hnetinfo.1.2.2 c (hP0r2.subset hc))
  have hP0semi : ';' ∉ P0 := fun hm => h1 (mem_clean u ';' (hP0mem ';' hm))
  have hP0safe : ∀ c ∈ P0, ¬ (c = '\t' ∨ c = '\r' ∨ c = '\n') :=
    fun c hc => clean_no_unsafe u c (hP0mem c hc)
  have hparse : pyUrlparse u = ⟨S0, N0, P0, [], Q0, F0⟩ := by
    rw [pyUrlparse_no_params u (by rw [hsplit]; exact hP0semi), hsplit]
  have hP02 : ¬ (['/', '/'] <+: P0) := by
    rw [hparse] at h2
    exact h2
  have hPs : rstripSlash (rstripSlash P0) = rstripSlash P0 := rstripSlash_idem P0
  have hP2 : ¬ (['/', '/'] <+: rstripSlash P0) :=
    fun hp => hP02 (hp.trans (rstripSlash_isPre P0))
  have hPq : '?' ∉ rstripSlash P0 := fun hm => hP0q (rstripSlash_sub P0 _ hm)
  have hPh : '#' ∉ rstripSlash P0 := fun hm => hP0h (rstripSlash_sub P0 _ hm)
  have hPsemi : ';' ∉ rstripSlash P0 := fun hm => hP0semi (rstripSlash_sub P0 _ hm)
  have hPsafe : ∀ c ∈ rstripSlash P0, ¬ (c = '\t' ∨ c = '\r' ∨ c = '\n') :=
    fun c hc => hP0safe c (rstripSlash_sub P0 c hc)
  have hQsafe : ∀ c ∈ urlencodeQs (filterTracking (parseQs Q0)), qsSafe c = true :=
    fun c hc => qsSafe_of_mem_urlencodeQs _ c hc
  have hnorm1 : pyNormalize u = pyUrlunsplit S0 (pyLower N0) (rstripSlash P0)
      (urlencodeQs (filterTracking (parseQs Q0))) [] := by
    unfold pyNormalize
    rw [hparse]
    show pyUrlunparse ⟨S0, pyLower N0, rstripSlash P0, [],
      urlencodeQs (filterTracking (parseQs Q0)), []⟩ = _
    rw [pyUrlunparse_no_params]
  by_cases hC : pyLower N0 ≠ [] ∨ (S0 ≠ [] ∧ usesNetloc.contains S0 ∧
      (rstripSlash P0).take 2 ≠ ['/', '/'])
  · -- the reassembled URL carries a netloc marker
    rw [hnorm1, pyUrlunsplit_eval_pos _ _ _ _ hC]
    have hSgood2 : S0 = [] ∨ (S0 ≠ [] ∧ (∀ c ∈ S0.take 1, isAsciiAlpha c = true) ∧
        (∀ x ∈ S0, isSchemeChar x = true) ∧ pyLower S0 = S0) := by
      rcases hscheme with ⟨hS, -, -⟩ | ⟨hne, hhd, hall, hlow, -⟩
      · exact Or.inl hS
      · exact Or.inr ⟨hne, hhd, hall, hlow⟩
    have hN2 : ∀ c ∈ pyLower N0, isNetlocDelim c = false :=
      pyLower_no_delim N0 hnetinfo.1.1
    have hNsafe2 : ∀ c ∈ pyLower N0, ¬ (c = '\t' ∨ c = '\r' ∨ c = '\n') :=
      pyLower_not_unsafe N0
        (fun c hc => clean_no_unsafe u c (hr1mem c (hnetinfo.1.2.1 c hc)))
    have hcore := pyUrlsplit_netloc_core S0 (pyLower N0)
      (if rstripSlash P0 ≠ [] ∧ (rstripSlash P0).take 1 ≠ ['/'] then '/' :: rstripSlash P0
        else rstripSlash P0)
      (urlencodeQs (filterTracking (parseQs Q0)))
      hSgood2 hN2 hNsafe2 (slashAdjust_shape _)
      (slashAdjust_not_mem _ '?' (by decide) hPq)
      (slashAdjust_not_mem _ '#' (by decide) hPh)
      (slashAdjust_safe _ hPsafe) hQsafe
    have hsemi2 : ';' ∉ (if rstripSlash P0 ≠ [] ∧ (rstripSlash P0).take 1 ≠ ['/']
        then '/' :: rstripSlash P0 else rstripSlash P0) :=
      slashAdjust_not_mem _ ';' (by decide) hPsemi
    have hparse2 := pyUrlparse_no_params _ (by rw [hcore]; exact hsemi2)
    rw [hcore] at hparse2
    have hC2 : pyLower N0 ≠ [] ∨ (S0 ≠ [] ∧ usesNetloc.contains S0 ∧
        (if rstripSlash P0 ≠ [] ∧ (rstripSlash P0).take 1 ≠ ['/']
          then '/' :: rstripSlash P0 else rstripSlash P0).take 2 ≠ ['/', '/']) := by
      rcases hC with hN | ⟨hS, hu, -⟩
      · exact Or.inl hN
      · exact Or.inr ⟨hS, hu, take2_ne_of_not_prefix _ (slashAdjust_no_slashslash _ hP2)⟩
    unfold pyNormalize
    rw [hparse2]
    show pyUrlunparse ⟨S0, pyLower (pyLower N0),
      rstripSlash (if rstripSlash P0 ≠ [] ∧ (rstripSlash P0).take 1 ≠ ['/']
        then '/' :: rstripSlash P0 else rstripSlash P0), [],
      urlencodeQs (filterTracking (parseQs
        (urlencodeQs (filterTracking (parseQs Q0))))), []⟩ = _
    rw [pyUrlunparse_no_params, pyLower_idem, slashAdjust_rstrip _ hPs, urlencode_round,
      pyUrlunsplit_eval_pos _ _ _ _ hC2, slashAdjust_idem]
  · -- no netloc marker on the reassembled URL
    obtain ⟨hA, hB⟩ := not_or.mp hC
    have hNnil : pyLower N0 = [] := not_not.mp hA
    rw [hnorm1, hNnil, pyUrlunsplit_eval_neg _ _ _ _ (by
      intro hor
      rcases hor with hx | hx
      · exact hx rfl
      · exact hB hx)]
    by_cases hS : S0 = []
    · have hr1uc : r1 = removeUnsafe (lstripControl u) := by
        rcases hscheme with ⟨-, h3, -⟩ | ⟨hne, -⟩
        · exact h3
        · exact absurd hS hne
      have hschnone : schemeSplit (removeUnsafe (lstripControl u)) = none := by
        rcases hscheme with ⟨-, -, h3⟩ | ⟨hne, -⟩
        · exact h3
        · exact absurd hS hne
      subst hS
      rw [if_neg (by simp : ¬ (([] : List Char) ≠ []))]
      obtain ⟨hPnone, hPhead2⟩ : (∀ t : List Char, ':' ∉ t →
          schemeSplit (rstripSlash P0 ++ t) = none) ∧
          ∀ c ∈ (rstripSlash P0).take 1, 0x20 < c.toNat := by
        refine caseA_path_facts u P0 r2 hschnone hP0r2 hP0q hP0h ?_
        rcases hnetinfo.2 with ⟨-, hr2h⟩ | ⟨-, -, hr2r1⟩
        · exact Or.inl hr2h
        · exact Or.inr (by rw [hr2r1, hr1uc])
      clear hsr hnr hrf hpq hsplit hparse hscheme hnetinfo hnorm1 hr1mem
      clear hr3pre hP0pre hP0r2 hr1uc hschnone
      have hschv : schemeSplit (if urlencodeQs (filterTracking (parseQs Q0)) ≠ []
          then rstripSlash P0 ++ '?' :: urlencodeQs (filterTracking (parseQs Q0))
          else rstripSlash P0) = none := by
        by_cases hQe : urlencodeQs (filterTracking (parseQs Q0)) = []
        · rw [if_neg (by simp [hQe])]
          have h3 := hPnone [] (by simp)
          rwa [List.append_nil] at h3
        · rw [if_pos hQe]
          refine hPnone ('?' :: _) ?_
          intro hm
          rcases List.mem_cons.mp hm with heq | hm2
          · exact absurd heq (by decide)
          · exact qsSafe_not_mem ':' (by decide) _ hQsafe hm2
      have hcore := pyUrlsplit_plain_core (rstripSlash P0)
        (urlencodeQs (filterTracking (parseQs Q0))) hschv hP2 hPq hPh hPsafe hPhead2 hQsafe
      have hparse2 := pyUrlparse_no_params _ (by rw [hcore]; exact hPsemi)
      rw [hcore] at hparse2
      unfold pyNormalize
      rw [hparse2]
      show pyUrlunparse ⟨[], pyLower [], rstripSlash (rstripSlash P0), [],
        urlencodeQs (filterTracking (parseQs
          (urlencodeQs (filterTracking (parseQs Q0))))), []⟩ = _
      rw [pyUrlunparse_no_params, pyLower_nil, hPs, urlencode_round]
      rw [pyUrlunsplit_eval_neg ([] : List Char) [] (rstripSlash P0) _ (by
        intro hor
        rcases hor with hx | hx
        · exact hx rfl
        · exact hx.1 rfl)]
      rw [if_neg (by simp : ¬ (([] : List Char) ≠ []))]
    · rcases hscheme with ⟨hS0nil, -, -⟩ | ⟨hne, hhd, hall, hlow, -⟩
      · exact absurd hS0nil hS
      rw [if_pos hS]
      have hcore := pyUrlsplit_scheme_core S0 (rstripSlash P0)
        (urlencodeQs (filterTracking (parseQs Q0))) hne hhd hall hlow hP2 hPq hPh
        hPsafe hQsafe
      have hparse2 := pyUrlparse_no_params _ (by rw [hcore]; exact hPsemi)
      rw [hcore] at hparse2
      unfold pyNormalize
      rw [hparse2]
      show pyUrlunparse ⟨S0, pyLower [], rstripSlash (rstripSlash P0), [],
        urlencodeQs (filterTracking (parseQs
          (urlencodeQs (filterTracking (parseQs Q0))))), []⟩ = _
      rw [pyUrlunparse_no_params, pyLower_nil, hPs, urlencode_round]
      rw [pyUrlunsplit_eval_neg S0 [] (rstripSlash P0) _ (by
        intro hor
        rcases hor with hx | hx
        · exact hx rfl
        · exact hB hx)]
      rw [if_pos hS]

set_option maxHeartbeats 1600000 in
/-- Witness for the amended C10 at a concrete URL satisfying both
hypotheses: upper-case host, tracking parameter, fragment and trailing
slash are all normalized away, and a second normalization is a no-op. -/
theorem C10_normalize_idempotent_witness :
    (';' ∉ ("https://WWW.Example.com/Recipes/?utm_source=x&b=2#frag".toList))
    ∧ ¬ (['/', '/'] <+:
        (pyUrlparse ("https://WWW.Example.com/Recipes/?utm_source=x&b=2#frag".toList)).path)
    ∧ pyNormalize (pyNormalize
        ("https://WWW.Example.com/Recipes/?utm_source=x&b=2#frag".toList)) =
      pyNormalize ("https://WWW.Example.com/Recipes/?utm_source=x&b=2#frag".toList) :=
  ⟨by decide, by decide, C10_normalize_idempotent _ (by decide) (by decide)⟩

end OrionMealie
